import Mathlib

/-!
# Verification of the dev-graph extraction engine

Shallow embedding of `src/dev-graph-backend/parser.py` (pattern-based
entity recognition, import resolution, graph accumulation and link
deduplication), together with a spec-modelled incremental merger
(`build_graph_incremental` is imported by `main.py` but is not defined in
`parser.py`).

Modelling conventions:
* Python strings are Lean `String`s; all character-level operations
  (`str.replace`, `str.strip`, `str.startswith`, `str.endswith`,
  `posixpath` joins) are re-implemented on `List Char` so that they are
  executable and kernel-reducible.  All contents considered are ASCII,
  matching what the Python regexes see on ASCII input.
* The regular expressions of `PATTERNS` are implemented as deterministic
  scanners with the exact semantics of `re.findall` on these patterns
  (leftmost scan, non-overlapping matches, group 1 returned).  Each of the
  seven patterns is simple enough that Python's backtracking is
  deterministic, which the per-pattern matchers mirror.
* The filesystem seen by `resolve_import` is a list `fs` of repo-relative
  paths that exist under the repository root.  A candidate path that is
  absolute (starts with `/`) escapes the repository root under
  `pathlib`'s join semantics (`Path(root) / p` ignores `root` when `p` is
  absolute); the model assumes a repository root that is not `/` and an
  otherwise empty surrounding filesystem, so such candidates never exist.
* Per-file read failure (`open`/`read` raising) is modelled by the file's
  content being `none`: `parse_file` then returns exactly what the Python
  function returns when `open` raises, namely the already-appended file
  node and nothing else.
* `random.uniform(-600, 600)` is modelled by a coordinate stream
  `rng : Nat → Int × Int × Int`; each newly inserted node consumes one
  fresh stream position.  No property proved here depends on the values.
-/

namespace DevGraph

/-! ## Character classes of the regexes (ASCII, as in `parser.py`) -/

/-- `\w` (word character) for ASCII input. -/
def isWordChar (c : Char) : Bool :=
  c.isAlpha || c.isDigit || c = '_'

/-- `\s` (whitespace) as Python `re` sees it on ASCII input. -/
def isSpaceChar (c : Char) : Bool :=
  c = ' ' || c = '\t' || c = '\n' || c = '\r' || c = Char.ofNat 11 || c = Char.ofNat 12

/-- `[a-zA-Z_]`, the first character of an identifier capture. -/
def isIdentStart (c : Char) : Bool :=
  c.isAlpha || c = '_'

/-- `[A-Za-z0-9_]`, the tail characters of an identifier capture. -/
def isIdentChar (c : Char) : Bool :=
  c.isAlpha || c.isDigit || c = '_'

/-- `[A-Z]`, first character of a class-name capture. -/
def isUpperAZ (c : Char) : Bool :=
  'A' ≤ c && c ≤ 'Z'

/-- `[a-zA-Z0-9_.\-\/@]`, the import-token capture class. -/
def isImportChar (c : Char) : Bool :=
  c.isAlpha || c.isDigit || c = '_' || c = '.' || c = '-' || c = '/' || c = '@'

/-! ## String helpers (models of the Python string operations used) -/

/-- Model of `str.strip()` (Python default strip: whitespace at both
ends). -/
def pyStrip (s : String) : String :=
  String.mk (((s.data.dropWhile isSpaceChar).reverse.dropWhile isSpaceChar).reverse)

/-- Model of `str.replace('.', '/')`: single-character replacement is a
character-wise map. -/
def replaceDotSlash (s : String) : String :=
  String.mk (s.data.map (fun c => if c = '.' then '/' else c))

/-- Model of `import_path.startswith(('.', '/', '@'))`: each marker is a
single character. -/
def hasMarker (s : String) : Bool :=
  match s.data with
  | c :: _ => c = '.' || c = '/' || c = '@'
  | [] => false

/-- Model of `str.endswith(suffix)`. -/
def strEndsWith (s suffix : String) : Bool :=
  suffix.data.isSuffixOf s.data

/-- Whether a POSIX path string is absolute (starts with `/`). -/
def isAbsPath (s : String) : Bool :=
  match s.data with
  | c :: _ => c = '/'
  | [] => false

/-- Model of `os.path.join(a, b)` for POSIX paths as used here (`b` is
never empty). -/
def ospJoin (a b : String) : String :=
  if isAbsPath b then b
  else if a.data.getLast? = some '/' then a ++ b
  else a ++ "/" ++ b

/-- Split a character list at `'/'` separators. -/
def splitOnSlash : List Char → List (List Char)
  | [] => [[]]
  | c :: cs =>
    if c = '/' then [] :: splitOnSlash cs
    else
      match splitOnSlash cs with
      | [] => [[c]]
      | s :: ss => (c :: s) :: ss

/-- `pathlib` normalization of a relative POSIX path: `PurePosixPath`
drops `.` segments and empty segments (duplicate slashes), which is also
what `str(full.relative_to(repo_root))` prints for `full = root / p` with
`p` relative. -/
def normRel (p : String) : String :=
  String.intercalate "/"
    (((splitOnSlash p.data).filter (fun seg => seg ≠ [] && seg ≠ ['.'])).map String.mk)

/-! ## `re.findall` machinery

`re.findall(pat, content)` scans `content` left to right, attempting a
match at each position; on success it records group 1 and resumes after
the match, on failure it advances one character.  `\b` before a word
character holds iff the previous character (if any) is not a word
character; the driver threads that previous character through the scan. -/

/-- Match a literal string (a run of literal regex characters) at the
head of the input, returning the rest. -/
def stripLit : List Char → List Char → Option (List Char)
  | [], cs => some cs
  | _ :: _, [] => none
  | l :: ls, c :: cs => if c = l then stripLit ls cs else none

/-- `\b` before a word character: the previous character, if any, must
not be a word character. -/
def wordBoundaryOk (prev : Option Char) : Bool :=
  match prev with
  | none => true
  | some c => !isWordChar c

/-- The character of `orig` immediately before the suffix `rest`
(i.e. the last character a successful match consumed). -/
def lastBefore (orig rest : List Char) : Option Char :=
  (orig.take (orig.length - rest.length)).getLast?

/-- The findall driver.  `try1 prev cs` attempts a match of the whole
pattern at the head of `cs` given previous character `prev`, returning
(group 1, rest after the match).  Fuel is the input length: every
attempt either advances one character or consumes at least one. -/
def scanAll (try1 : Option Char → List Char → Option (List Char × List Char)) :
    Nat → Option Char → List Char → List (List Char)
  | 0, _, _ => []
  | _ + 1, _, [] => []
  | fuel + 1, prev, c :: cs =>
    match try1 prev (c :: cs) with
    | some (cap, rest) => cap :: scanAll try1 fuel (lastBefore (c :: cs) rest) rest
    | none => scanAll try1 fuel (some c) cs

/-- `re.findall` of one pattern over a content string. -/
def findAllPat (try1 : Option Char → List Char → Option (List Char × List Char))
    (s : String) : List String :=
  (scanAll try1 s.data.length none s.data).map String.mk

/-- Matcher for the keyword-then-capture patterns
`\bKW\s+([first][rest]*)`; covers the `class`, `def`, `function` and
module-`import` patterns (for `import`, first = rest = the import
character class, so the capture is `[class]+`). -/
def kwCapTry (kw : List Char) (first restC : Char → Bool)
    (prev : Option Char) (cs : List Char) : Option (List Char × List Char) :=
  if wordBoundaryOk prev then
    match stripLit kw cs with
    | some rest1 =>
      if rest1.takeWhile isSpaceChar = [] then none
      else
        match rest1.dropWhile isSpaceChar with
        | c :: rest3 =>
          if first c then some (c :: rest3.takeWhile restC, rest3.dropWhile restC)
          else none
        | [] => none
    | none => none
  else none

/-- `re.compile(r'\bclass\s+([A-Z][A-Za-z0-9_]*)')`. -/
def classTry : Option Char → List Char → Option (List Char × List Char) :=
  kwCapTry "class".data isUpperAZ isIdentChar

/-- `re.compile(r'\bdef\s+([a-zA-Z_][A-Za-z0-9_]*)')`. -/
def defTry : Option Char → List Char → Option (List Char × List Char) :=
  kwCapTry "def".data isIdentStart isIdentChar

/-- `re.compile(r'\bfunction\s+([a-zA-Z_][A-Za-z0-9_]*)')`. -/
def functionKwTry : Option Char → List Char → Option (List Char × List Char) :=
  kwCapTry "function".data isIdentStart isIdentChar

/-- `re.compile(r'([a-zA-Z_][A-Za-z0-9_]*)\s*\([^)]*\)\s*\{')`.  The
pattern has no `\b`, but every alternative of its backtracking is
excluded by disjoint character classes, so greedy munching is exact. -/
def funcHeurTry (_ : Option Char) (cs : List Char) : Option (List Char × List Char) :=
  match cs with
  | [] => none
  | c :: rest =>
    if isIdentStart c then
      let cap := c :: rest.takeWhile isIdentChar
      let r1 := (rest.dropWhile isIdentChar).dropWhile isSpaceChar
      match r1 with
      | '(' :: r3 =>
        match r3.dropWhile (fun d => d ≠ ')') with
        | ')' :: r5 =>
          match r5.dropWhile isSpaceChar with
          | d :: r7 => if d = Char.ofNat 123 then some (cap, r7) else none
          | [] => none
        | _ => none
      | _ => none
    else none

/-- `re.compile(r'\bimport\s+([a-zA-Z0-9_.\-\/@]+)')`. -/
def importTry : Option Char → List Char → Option (List Char × List Char) :=
  kwCapTry "import".data isImportChar isImportChar

/-- `re.compile(r'\bfrom\s+([a-zA-Z0-9_.\-\/@]+)\s+import')`.  The
capture class excludes whitespace, so the greedy capture and the
following `\s+` are deterministic. -/
def fromTry (prev : Option Char) (cs : List Char) : Option (List Char × List Char) :=
  if wordBoundaryOk prev then
    match stripLit "from".data cs with
    | some rest1 =>
      if rest1.takeWhile isSpaceChar = [] then none
      else
        match rest1.dropWhile isSpaceChar with
        | c :: rest3 =>
          if isImportChar c then
            let cap := c :: rest3.takeWhile isImportChar
            let r4 := rest3.dropWhile isImportChar
            if r4.takeWhile isSpaceChar = [] then none
            else
              match stripLit "import".data (r4.dropWhile isSpaceChar) with
              | some r5 => some (cap, r5)
              | none => none
          else none
        | [] => none
    | none => none
  else none

/-- Lazy `(.+?)C` where the single closing character satisfies
`isClose`: the shortest nonempty capture (not crossing a newline, since
`.` excludes `\n`) followed by a closing character.  `accRev` already
holds the (reversed, nonempty) capture prefix. -/
def lazyClose1 (isClose : Char → Bool) : List Char → List Char → Option (List Char × List Char)
  | _, [] => none
  | accRev, c :: r =>
    if isClose c then some (accRev.reverse, r)
    else if c = '\n' then none
    else lazyClose1 isClose (c :: accRev) r

/-- Lazy `(.+?)Q\)` where `Q` satisfies `isQ`: the shortest nonempty
capture followed by a quote and a closing parenthesis. -/
def lazyClose2 (isQ : Char → Bool) : List Char → List Char → Option (List Char × List Char)
  | _, [] => none
  | _, [_] => none
  | accRev, q :: d :: r =>
    if isQ q && d = ')' then some (accRev.reverse, r)
    else if q = '\n' then none
    else lazyClose2 isQ (q :: accRev) (d :: r)

/-- `re.compile(r'\brequire\([\'"](.+?)[\'"]\)')`. -/
def requireTry (prev : Option Char) (cs : List Char) : Option (List Char × List Char) :=
  if wordBoundaryOk prev then
    match stripLit "require(".data cs with
    | some (q :: c :: rest) =>
      if q = Char.ofNat 39 || q = Char.ofNat 34 then
        if c = '\n' then none
        else lazyClose2 (fun d => d = Char.ofNat 39 || d = Char.ofNat 34) [c] rest
      else none
    | _ => none
  else none

/-- `re.compile(r'#include\s+[<"](.+?)[>"]')`. -/
def includeTry (_ : Option Char) (cs : List Char) : Option (List Char × List Char) :=
  match stripLit "#include".data cs with
  | some rest1 =>
    if rest1.takeWhile isSpaceChar = [] then none
    else
      match rest1.dropWhile isSpaceChar with
      | o :: c :: rest =>
        if o = '<' || o = Char.ofNat 34 then
          if c = '\n' then none
          else lazyClose1 (fun d => d = '>' || d = Char.ofNat 34) [c] rest
        else none
      | _ => none
  | none => none

/-- `re.compile(r'\bclass\s+\w+\s+extends\s+(\w+)')`. -/
def extendsKwTry (prev : Option Char) (cs : List Char) : Option (List Char × List Char) :=
  if wordBoundaryOk prev then
    match stripLit "class".data cs with
    | some rest1 =>
      if rest1.takeWhile isSpaceChar = [] then none
      else
        match rest1.dropWhile isSpaceChar with
        | c :: rest3 =>
          if isWordChar c then
            let r4 := rest3.dropWhile isWordChar
            if r4.takeWhile isSpaceChar = [] then none
            else
              match stripLit "extends".data (r4.dropWhile isSpaceChar) with
              | some r5 =>
                if r5.takeWhile isSpaceChar = [] then none
                else
                  match r5.dropWhile isSpaceChar with
                  | d :: rest6 =>
                    if isWordChar d then
                      some (d :: rest6.takeWhile isWordChar, rest6.dropWhile isWordChar)
                    else none
                  | [] => none
              | none => none
          else none
        | [] => none
    | none => none
  else none

/-- `re.compile(r'\bclass\s+\w+\s*\((\w+)\)')`. -/
def extendsParenTry (prev : Option Char) (cs : List Char) : Option (List Char × List Char) :=
  if wordBoundaryOk prev then
    match stripLit "class".data cs with
    | some rest1 =>
      if rest1.takeWhile isSpaceChar = [] then none
      else
        match rest1.dropWhile isSpaceChar with
        | c :: rest3 =>
          if isWordChar c then
            match (rest3.dropWhile isWordChar).dropWhile isSpaceChar with
            | '(' :: r4 =>
              match r4 with
              | d :: rest5 =>
                if isWordChar d then
                  match rest5.dropWhile isWordChar with
                  | ')' :: r6 => some (d :: rest5.takeWhile isWordChar, r6)
                  | _ => none
                else none
              | [] => none
            | _ => none
          else none
        | [] => none
    | none => none
  else none

/-! ## `PATTERNS`: per-category match lists (findall results of each
pattern, concatenated in the order the lists appear in `parser.py`) -/

/-- Matches of `PATTERNS["class"]`. -/
def classMatches (s : String) : List String :=
  findAllPat classTry s

/-- Matches of `PATTERNS["function"]` (three patterns, in order). -/
def funcMatches (s : String) : List String :=
  findAllPat defTry s ++ findAllPat functionKwTry s ++ findAllPat funcHeurTry s

/-- Matches of `PATTERNS["import"]` (four patterns, in order). -/
def importMatches (s : String) : List String :=
  findAllPat importTry s ++ findAllPat fromTry s ++
    findAllPat requireTry s ++ findAllPat includeTry s

/-- Matches of `PATTERNS["extends"]` (two patterns, in order). -/
def extendsMatches (s : String) : List String :=
  findAllPat extendsKwTry s ++ findAllPat extendsParenTry s

/-! ## Data model -/

/-- A node as produced by `parse_file`: the dicts `{"id": …, "type": …}`
before `build_graph` adds coordinates. -/
structure RawNode where
  id : String
  type : String
deriving DecidableEq, Repr

/-- A node stored in the graph, after `build_graph` has assigned the
random initial position. -/
structure Node where
  id : String
  type : String
  x : Int
  y : Int
  z : Int
deriving DecidableEq, Repr

/-- A link `{"source": …, "target": …}`. -/
structure Link where
  source : String
  target : String
deriving DecidableEq, Repr

/-- The `(source, target)` pair used by the link dedup. -/
def linkPair (l : Link) : String × String :=
  (l.source, l.target)

/-- The returned `{"nodes": …, "links": …}` shape. -/
structure Graph where
  nodes : List Node
  links : List Link
deriving DecidableEq, Repr

/-- `SUPPORTED_EXTENSIONS`, in source order. -/
def SUPPORTED_EXTENSIONS : List String :=
  [".py", ".js", ".ts", ".tsx", ".jsx", ".java", ".cpp", ".c", ".h", ".cs"]

/-! ## `resolve_import` -/

/-- Existence check `(Path(repo_root) / p).exists()` against a
repository whose root contains exactly the relative paths `fs`.  A
candidate that is absolute (starts with `/`) replaces the root under
`pathlib` join semantics and escapes the repository, so it does not
exist (the surrounding filesystem is modelled as empty and the root as a
normal directory, not `/`).  A relative candidate stays under the root;
`pathlib` normalizes `.` and empty segments, and existence is membership
of the normalized relative path in `fs`. -/
def candidateExists (fs : List String) (p : String) : Bool :=
  if isAbsPath p then false
  else fs.contains (normRel p)

/-- The ordered candidate list `resolve_import` walks: nothing for a
bare module name; the token itself if it already ends with a supported
extension; otherwise, for each extension, the token with dots replaced
by `/` plus the extension, then, for each extension, the same base as a
directory with `index.<ext>`. -/
def resolveCandidates (import_path : String) : List String :=
  if hasMarker import_path then
    let base := import_path
    if !SUPPORTED_EXTENSIONS.any (fun ext => strEndsWith base ext) then
      SUPPORTED_EXTENSIONS.map (fun ext => replaceDotSlash base ++ ext) ++
        SUPPORTED_EXTENSIONS.map (fun ext => ospJoin (replaceDotSlash base) ("index" ++ ext))
    else [base]
  else []

/-- `resolve_import(import_path, repo_root)`: a token that does not
start with `.`, `/` or `@` is returned unchanged (external); otherwise
the first candidate that exists resolves to its root-relative path
(`str(full.relative_to(repo_root))`), and if none exists the original
token is returned. -/
def resolve_import (fs : List String) (import_path : String) : String :=
  if hasMarker import_path then
    match (resolveCandidates import_path).find? (fun p => candidateExists fs p) with
    | some p => normRel p
    | none => import_path
  else import_path

/-! ## `parse_file`

The four extraction loops run in sequence over the same content; each
loop appends one node and one link per (nonempty, stripped) match, so
the node list is the file node followed by the per-category node blocks
in loop order, and likewise for links. -/

/-- Nodes appended by the class loop: `{"id": f"{rel}::{m}", "type": f"class:{m}"}`. -/
def classNodesOf (rel : String) (ms : List String) : List RawNode :=
  ms.map (fun m => ⟨rel ++ "::" ++ m, "class:" ++ m⟩)

/-- Links appended by the class loop. -/
def classLinksOf (rel : String) (ms : List String) : List Link :=
  ms.map (fun m => ⟨rel, rel ++ "::" ++ m⟩)

/-- `name = match.strip(); if name:` — the function names kept. -/
def funcNamesOf (ms : List String) : List String :=
  (ms.map pyStrip).filter (fun n => n ≠ "")

/-- Nodes appended by the function loop. -/
def funcNodesOf (rel : String) (ms : List String) : List RawNode :=
  (funcNamesOf ms).map (fun n => ⟨rel ++ "::" ++ n, "function:" ++ n⟩)

/-- Links appended by the function loop. -/
def funcLinksOf (rel : String) (ms : List String) : List Link :=
  (funcNamesOf ms).map (fun n => ⟨rel, rel ++ "::" ++ n⟩)

/-- `imp = match.strip(); if not imp: continue` — the import tokens kept. -/
def importTokensOf (ms : List String) : List String :=
  (ms.map pyStrip).filter (fun imp => imp ≠ "")

/-- Nodes appended by the import loop: the resolved target, typed
`external:<imp>` when resolution returned the token unchanged and
`file` otherwise. -/
def importNodesOf (fs : List String) (ms : List String) : List RawNode :=
  (importTokensOf ms).map (fun imp =>
    let target := resolve_import fs imp
    ⟨target, if target = imp then "external:" ++ imp else "file"⟩)

/-- Links appended by the import loop. -/
def importLinksOf (fs : List String) (rel : String) (ms : List String) : List Link :=
  (importTokensOf ms).map (fun imp => ⟨rel, resolve_import fs imp⟩)

/-- `base = match.strip(); if base:` — the inheritance base names kept. -/
def extendsBasesOf (ms : List String) : List String :=
  (ms.map pyStrip).filter (fun b => b ≠ "")

/-- Nodes appended by the extends loop: note the id is the bare base
name, `{"id": base, "type": f"class:{base}"}`. -/
def extendsNodesOf (ms : List String) : List RawNode :=
  (extendsBasesOf ms).map (fun b => ⟨b, "class:" ++ b⟩)

/-- Links appended by the extends loop. -/
def extendsLinksOf (rel : String) (ms : List String) : List Link :=
  (extendsBasesOf ms).map (fun b => ⟨rel, b⟩)

/-- Assembly of a per-file result from the four categories' match
lists, mirroring the sequential loops of `parse_file`. -/
def parse_file_from_matches (fs : List String) (rel : String)
    (cM fM iM eM : List String) : List RawNode × List Link :=
  (⟨rel, "file"⟩ ::
      (classNodesOf rel cM ++ funcNodesOf rel fM ++ importNodesOf fs iM ++ extendsNodesOf eM),
    classLinksOf rel cM ++ funcLinksOf rel fM ++ importLinksOf fs rel iM ++ extendsLinksOf rel eM)

/-- `parse_file(filepath, repo_root)` for a file at root-relative path
`rel`.  `content?` is the result of opening and reading the file:
`none` models `open`/`read` raising, in which case the exception is
caught after only the file node was appended and the file contributes
`([file_node], [])`. -/
def parse_file (fs : List String) (rel : String) (content? : Option String) :
    List RawNode × List Link :=
  match content? with
  | none => ([⟨rel, "file"⟩], [])
  | some content =>
    parse_file_from_matches fs rel (classMatches content) (funcMatches content)
      (importMatches content) (extendsMatches content)

/-! ## `build_graph` -/

/-- The accumulator state: insertion-ordered node map (a list with
unique ids), the count of nodes inserted so far (how many coordinate
draws have been consumed), and the raw link sequence. -/
structure BuildState where
  nodes : List Node
  ctr : Nat
  links : List Link
deriving Repr

/-- A raw node the moment it is first inserted: its attributes plus the
three fresh coordinate draws of stream position `ctr`. -/
def freshNode (rng : Nat → Int × Int × Int) (ctr : Nat) (rn : RawNode) : Node :=
  { id := rn.id, type := rn.type,
    x := (rng ctr).1, y := (rng ctr).2.1, z := (rng ctr).2.2 }

/-- The per-file node merge: `if nid not in all_nodes:` assign fresh
random coordinates (one stream position per new node) and store;
otherwise the later occurrence is dropped. -/
def insertRaw (rng : Nat → Int × Int × Int) :
    List Node → Nat → List RawNode → List Node × Nat
  | nodes, ctr, [] => (nodes, ctr)
  | nodes, ctr, rn :: rest =>
    if nodes.any (fun m => m.id = rn.id) then insertRaw rng nodes ctr rest
    else insertRaw rng (nodes ++ [freshNode rng ctr rn]) (ctr + 1) rest

/-- One step of the build loop body for a walked file. -/
def buildStep (fs : List String) (rng : Nat → Int × Int × Int)
    (s : BuildState) (f : String × Option String) : BuildState :=
  let r := parse_file fs f.1 f.2
  let ins := insertRaw rng s.nodes s.ctr r.1
  { nodes := ins.1, ctr := ins.2, links := s.links ++ r.2 }

/-- `file.endswith(SUPPORTED_EXTENSIONS)`. -/
def hasSupportedExt (name : String) : Bool :=
  SUPPORTED_EXTENSIONS.any (fun ext => strEndsWith name ext)

/-- `seen`-set link deduplication, keeping the first occurrence of each
`(source, target)` pair. -/
def dedupAux : List (String × String) → List Link → List Link
  | _, [] => []
  | seen, l :: rest =>
    if linkPair l ∈ seen then dedupAux seen rest
    else l :: dedupAux (linkPair l :: seen) rest

/-- The final link deduplication of `build_graph`. -/
def dedupLinks (ls : List Link) : List Link :=
  dedupAux [] ls

/-- The accumulator state after the walk.  `files` is the tree walk's
enumeration: pairs of root-relative path and read result; the extension
filter of the walk body is applied here. -/
def buildStateOf (fs : List String) (rng : Nat → Int × Int × Int)
    (files : List (String × Option String)) : BuildState :=
  (files.filter (fun f => hasSupportedExt f.1)).foldl (buildStep fs rng) ⟨[], 0, []⟩

/-- `build_graph(repo_path)`: full scan from empty state, then link
deduplication. -/
def build_graph (fs : List String) (rng : Nat → Int × Int × Int)
    (files : List (String × Option String)) : Graph :=
  let s := buildStateOf fs rng files
  { nodes := s.nodes, links := dedupLinks s.links }

/-! ## Incremental merge (modelled from the spec) -/

/-- Merge fresh links into the deduplicated link sequence under the
same seen-`(source,target)` rule (the pairs already present are exactly
the pairs of the accumulated sequence). -/
def mergeLinks : List Link → List Link → List Link
  | acc, [] => acc
  | acc, l :: rest =>
    if linkPair l ∈ acc.map linkPair then mergeLinks acc rest
    else mergeLinks (acc ++ [l]) rest

/-- One changed-file step of the incremental merger: a path that no
longer exists is skipped; otherwise the File Scanner runs on it and the
result merges into the same accumulator state. -/
def incStep (fs : List String) (rng : Nat → Int × Int × Int)
    (contents : String → Option String) (s : BuildState) (p : String) : BuildState :=
  if fs.contains p then
    let r := parse_file fs p (contents p)
    let ins := insertRaw rng s.nodes s.ctr r.1
    { nodes := ins.1, ctr := ins.2, links := mergeLinks s.links r.2 }
  else s

/-- Modelled from the spec: `build_graph_incremental` is imported by
`main.py` (`from parser import build_graph, build_graph_incremental`)
but no definition exists in `parser.py` under `src/`.  Following §4.6
and §6 of the spec: for each changed root-relative path, a deleted path
is skipped; otherwise the File Scanner re-scans it and the result is
merged into the existing accumulator state under the same first-wins
node rule and `(source,target)` link dedup — untouched nodes and links
are unaffected, re-discovered nodes keep their prior attributes, new
nodes get fresh coordinates (`rng` here is a fresh stream), and only
the listed files are scanned.  The output is the full updated graph. -/
def build_graph_incremental (fs : List String) (rng : Nat → Int × Int × Int)
    (g : Graph) (contents : String → Option String) (changed : List String) : Graph :=
  let s := changed.foldl (incStep fs rng contents) ⟨g.nodes, 0, g.links⟩
  { nodes := s.nodes, links := s.links }

/-! ## Spec-side definition for the first-seen-order claim -/

/-- A second, spec-following definition of "the link sequence in
first-seen order": fold over the raw pair sequence, appending each pair
not seen before.  Used to state that `build_graph`'s deduplication
refines the spec's first-seen order. -/
def firstSeenPairs (ps : List (String × String)) : List (String × String) :=
  ps.foldl (fun acc p => if p ∈ acc then acc else acc ++ [p]) []

/-! ## C1: incremental merge scenario -/

/-- C1: incremental merge.  For the graph G built over `a.py` and
`b.py`, after `a.py` is edited to add a function `foo`, the incremental
merge with changed-file list `["a.py"]` returns the full updated graph:
every node and link of G unchanged (in particular the nodes from `b.py`
keep all their attributes), plus exactly one new node `a.py::foo` with
fresh coordinates and the containment link from `a.py` to it.  Only the
listed file is re-scanned (the merge folds over the changed list
alone). -/
theorem incremental_merge_adds_new_function (rng rng2 : Nat → Int × Int × Int) :
    build_graph_incremental ["a.py", "b.py"] rng2
        (build_graph ["a.py", "b.py"] rng
          [("a.py", some "def bar(): pass"), ("b.py", some "def baz(): pass")])
        (fun p => if p = "a.py" then some "def bar(): pass\ndef foo(): pass"
                  else some "def baz(): pass")
        ["a.py"] =
      { nodes := (build_graph ["a.py", "b.py"] rng
            [("a.py", some "def bar(): pass"), ("b.py", some "def baz(): pass")]).nodes ++
            [{ id := "a.py::foo", type := "function:foo",
               x := (rng2 0).1, y := (rng2 0).2.1, z := (rng2 0).2.2 }],
        links := (build_graph ["a.py", "b.py"] rng
            [("a.py", some "def bar(): pass"), ("b.py", some "def baz(): pass")]).links ++
            [{ source := "a.py", target := "a.py::foo" }] } :=
  rfl

/-! ## C2: the `./utils/helpers` resolution scenario (code bug) -/

/-- C2: the spec's resolution scenario fails on the code.  With the
repository containing `utils/helpers.ts`, resolving `./utils/helpers`
returns the token unchanged (hence an `external:` node), not
`utils/helpers.ts`: `base.replace('.', '/')` rewrites the leading `./`
to `//`, so every candidate is an absolute path outside the repository
and no candidate exists. -/
theorem resolve_relative_token_stays_external :
    resolve_import ["app.ts", "utils/helpers.ts"] "./utils/helpers" = "./utils/helpers" ∧
      ("./utils/helpers" : String) ≠ "utils/helpers.ts" ∧
      (resolveCandidates "./utils/helpers").all (fun p => isAbsPath p) = true := by
  refine ⟨by decide, by decide, by decide⟩

/-! ## C3: read-failure tolerance -/

/-- C3 counterexample: a file whose read fails does NOT contribute an
empty result — the file node is appended before the `try` block, so the
nodes list is `[{"id": rel, "type": "file"}]`, not `[]`. -/
theorem read_failure_contributes_file_node :
    (parse_file [] "a.py" none).1 = [⟨"a.py", "file"⟩] ∧
      (parse_file [] "a.py" none).1 ≠ ([] : List RawNode) := by
  refine ⟨rfl, by decide⟩

/-- C3 amended: on read failure the error is caught and the file
contributes exactly its file node and no links (and no entity nodes);
the build continues with the remaining files, which are scanned
normally. -/
theorem read_failure_file_node_only (fs : List String) (rel : String)
    (rng : Nat → Int × Int × Int) :
    parse_file fs rel none = ([⟨rel, "file"⟩], []) ∧
      build_graph fs rng [("bad.py", none), ("b.py", some "def baz(): pass")] =
        { nodes := [{ id := "bad.py", type := "file",
                      x := (rng 0).1, y := (rng 0).2.1, z := (rng 0).2.2 },
                    { id := "b.py", type := "file",
                      x := (rng 1).1, y := (rng 1).2.1, z := (rng 1).2.2 },
                    { id := "b.py::baz", type := "function:baz",
                      x := (rng 2).1, y := (rng 2).2.1, z := (rng 2).2.2 }],
          links := [{ source := "b.py", target := "b.py::baz" }] } :=
  ⟨rfl, rfl⟩

/-! ## C4: import resolution is total -/

/-- C4: `resolve_import` is total (a plain function in this model, with
no failing path: each branch returns a string), and whenever no
candidate path exists on disk it returns the original token unchanged;
the scanner then emits the node `{"id": tok, "type": "external:" ++ tok}`
and the link from the scanning file to it. -/
theorem resolve_import_unresolved_stays_external (fs : List String) (tok rel : String)
    (hno : ∀ p ∈ resolveCandidates tok, candidateExists fs p = false) :
    resolve_import fs tok = tok ∧
      (pyStrip tok = tok → tok ≠ "" →
        importNodesOf fs [tok] = [⟨tok, "external:" ++ tok⟩] ∧
        importLinksOf fs rel [tok] = [⟨rel, tok⟩]) := by
  have hres : resolve_import fs tok = tok := by
    unfold resolve_import
    cases hm : hasMarker tok with
    | false => simp
    | true =>
      have hfind : (resolveCandidates tok).find? (fun p => candidateExists fs p) = none := by
        apply List.find?_eq_none.mpr
        intro p hp
        simp [hno p hp]
      simp [hfind]
  refine ⟨hres, fun htrim hne => ⟨?_, ?_⟩⟩
  · unfold importNodesOf importTokensOf
    simp [htrim, hne, hres]
  · unfold importLinksOf importTokensOf
    simp [htrim, hne, hres]

/-- C4 witness: the external fallback at the concrete token `lodash`
(no marker, no candidates, no filesystem check). -/
theorem resolve_import_unresolved_stays_external_witness :
    resolve_import [] "lodash" = "lodash" ∧
      (pyStrip "lodash" = "lodash" → "lodash" ≠ "" →
        importNodesOf [] ["lodash"] = [⟨"lodash", "external:lodash"⟩] ∧
        importLinksOf [] "app.ts" ["lodash"] = [⟨"app.ts", "lodash"⟩]) :=
  resolve_import_unresolved_stays_external [] "lodash" "app.ts" (by decide)

/-! ## String-tag helper lemmas -/

/-- Two strings with different first characters are different. -/
theorem tag_ne {s t : String} {a b : Char}
    (hs : s.data.head? = some a) (ht : t.data.head? = some b) (hab : a ≠ b) : s ≠ t := by
  intro he
  rw [he, ht] at hs
  exact hab (Option.some.inj hs).symm

/-- String append is left-cancellative. -/
theorem append_left_cancel_str {s a b : String} (h : s ++ a = s ++ b) : a = b := by
  have h2 := congrArg String.data h
  rw [String.data_append, String.data_append] at h2
  exact String.ext (List.append_cancel_left h2)

theorem head_class (m : String) : ("class:" ++ m).data.head? = some 'c' := by
  rw [String.data_append]; rfl

theorem head_function (m : String) : ("function:" ++ m).data.head? = some 'f' := by
  rw [String.data_append]; rfl

theorem head_external (m : String) : ("external:" ++ m).data.head? = some 'e' := by
  rw [String.data_append]; rfl

theorem head_file : ("file" : String).data.head? = some 'f' := rfl

/-- The tag `"file"` is never `"function:" ++ name`. -/
theorem file_ne_function (name : String) : ("file" : String) ≠ "function:" ++ name := by
  intro heq
  have h2 := congrArg String.data heq
  rw [String.data_append] at h2
  have h3 : (['f', 'i', 'l', 'e'] : List Char) =
      'f' :: 'u' :: 'n' :: 'c' :: 't' :: 'i' :: 'o' :: 'n' :: ':' :: name.data := h2
  simp at h3

/-! ## C5: entity id format -/

/-- C5 counterexample: in the file `f.js` with content
`class A extends B {}`, the extends pattern synthesizes the class node
with id equal to the bare base name `B`, not `f.js::B`, and no node
with id `f.js::B` exists. -/
theorem extends_node_bare_id :
    (⟨"B", "class:B"⟩ : RawNode) ∈
        (parse_file [] "f.js" (some "class A extends B \x7b\x7d")).1 ∧
      ("B" : String) ≠ "f.js" ++ "::" ++ "B" ∧
      (⟨"f.js" ++ "::" ++ "B", "class:B"⟩ : RawNode) ∉
        (parse_file [] "f.js" (some "class A extends B \x7b\x7d")).1 := by
  decide

/-- C5 amended: every node the class and function pattern categories
produce has id `<containing-file-path>::<Name>`; the class nodes
synthesized for inheritance base names by the extends patterns instead
have id equal to the bare base name.  Hence in any per-file result,
every `function:`-tagged node has id `rel::name`, and every
`class:`-tagged node has id `rel::name` or the bare `name`. -/
theorem entity_id_format (fs : List String) (rel content : String) :
    ∀ n ∈ (parse_file fs rel (some content)).1,
      (∀ name, n.type = "class:" ++ name → n.id = rel ++ "::" ++ name ∨ n.id = name) ∧
      (∀ name, n.type = "function:" ++ name → n.id = rel ++ "::" ++ name) := by
  intro n hn
  simp only [parse_file, parse_file_from_matches, List.mem_cons, List.mem_append] at hn
  rcases hn with hfile | (((hclass | hfun) | himp) | hext)
  · subst hfile
    constructor
    · intro name heq
      exact absurd heq (tag_ne head_file (head_class name) (by decide))
    · intro name heq
      exact absurd heq (file_ne_function name)
  · obtain ⟨m, hm, hn⟩ := List.mem_map.mp hclass
    subst hn
    constructor
    · intro name heq
      have := append_left_cancel_str heq
      subst this
      exact Or.inl rfl
    · intro name heq
      exact absurd heq (tag_ne (head_class m) (head_function name) (by decide))
  · obtain ⟨m, hm, hn⟩ := List.mem_map.mp hfun
    subst hn
    constructor
    · intro name heq
      exact absurd heq (tag_ne (head_function m) (head_class name) (by decide))
    · intro name heq
      have := append_left_cancel_str heq
      subst this
      rfl
  · obtain ⟨imp, hm, hn⟩ := List.mem_map.mp himp
    subst hn
    by_cases htgt : resolve_import fs imp = imp
    · constructor
      · intro name heq
        simp only [htgt, if_pos rfl] at heq
        exact absurd heq (tag_ne (head_external imp) (head_class name) (by decide))
      · intro name heq
        simp only [htgt, if_pos rfl] at heq
        exact absurd heq (tag_ne (head_external imp) (head_function name) (by decide))
    · constructor
      · intro name heq
        simp only [if_neg htgt] at heq
        exact absurd heq (tag_ne head_file (head_class name) (by decide))
      · intro name heq
        simp only [if_neg htgt] at heq
        exact absurd heq (file_ne_function name)
  · obtain ⟨b, hm, hn⟩ := List.mem_map.mp hext
    subst hn
    constructor
    · intro name heq
      have := append_left_cancel_str heq
      subst this
      exact Or.inr rfl
    · intro name heq
      exact absurd heq (tag_ne (head_class b) (head_function name) (by decide))

/-- C5 amended, witness: the `class:B` node of the `f.js` scenario falls
under the bare-name disjunct. -/
theorem entity_id_format_witness :
    (⟨"B", "class:B"⟩ : RawNode) ∈
        (parse_file [] "f.js" (some "class A extends B \x7b\x7d")).1 ∧
      ("B" = "f.js" ++ "::" ++ "B" ∨ ("B" : String) = "B") :=
  ⟨by decide,
    (entity_id_format [] "f.js" "class A extends B \x7b\x7d" ⟨"B", "class:B"⟩ (by decide)).1
      "B" rfl⟩

/-! ## C6 infrastructure: node-list extension and coordinate freshness -/

theorem insertRaw_nodes_extend (rng : Nat → Int × Int × Int) (raws : List RawNode) :
    ∀ nodes ctr, ∃ t, (insertRaw rng nodes ctr raws).1 = nodes ++ t := by
  induction raws with
  | nil => exact fun nodes ctr => ⟨[], by simp [insertRaw]⟩
  | cons rn rest ih =>
    intro nodes ctr
    cases h : nodes.any (fun m => m.id = rn.id) with
    | true =>
      obtain ⟨t, ht⟩ := ih nodes ctr
      exact ⟨t, by simp [insertRaw, h, ht]⟩
    | false =>
      obtain ⟨t, ht⟩ := ih (nodes ++ [freshNode rng ctr rn]) (ctr + 1)
      refine ⟨freshNode rng ctr rn :: t, ?_⟩
      have h2 : nodes ++ (freshNode rng ctr rn :: t) =
          (nodes ++ [freshNode rng ctr rn]) ++ t := by simp
      rw [h2]
      simpa [insertRaw, h] using ht

theorem foldl_buildStep_nodes_extend (fs : List String) (rng : Nat → Int × Int × Int)
    (files : List (String × Option String)) :
    ∀ s : BuildState, ∃ t, (files.foldl (buildStep fs rng) s).nodes = s.nodes ++ t := by
  induction files with
  | nil => exact fun s => ⟨[], by simp⟩
  | cons f rest ih =>
    intro s
    obtain ⟨t1, h1⟩ := insertRaw_nodes_extend rng (parse_file fs f.1 f.2).1 s.nodes s.ctr
    obtain ⟨t2, h2⟩ := ih (buildStep fs rng s f)
    refine ⟨t1 ++ t2, ?_⟩
    rw [List.foldl_cons, h2]
    have h3 : (buildStep fs rng s f).nodes = s.nodes ++ t1 := h1
    rw [h3, List.append_assoc]

theorem insertRaw_coord (rng : Nat → Int × Int × Int) (raws : List RawNode) :
    ∀ nodes ctr, ctr = nodes.length →
      (∀ j (h : j < nodes.length),
        (nodes.get ⟨j, h⟩).x = (rng j).1 ∧ (nodes.get ⟨j, h⟩).y = (rng j).2.1 ∧
          (nodes.get ⟨j, h⟩).z = (rng j).2.2) →
      (insertRaw rng nodes ctr raws).2 = (insertRaw rng nodes ctr raws).1.length ∧
        ∀ j (h : j < (insertRaw rng nodes ctr raws).1.length),
          ((insertRaw rng nodes ctr raws).1.get ⟨j, h⟩).x = (rng j).1 ∧
            ((insertRaw rng nodes ctr raws).1.get ⟨j, h⟩).y = (rng j).2.1 ∧
            ((insertRaw rng nodes ctr raws).1.get ⟨j, h⟩).z = (rng j).2.2 := by
  induction raws with
  | nil =>
    intro nodes ctr hctr hco
    exact ⟨by simpa [insertRaw] using hctr, by simpa [insertRaw] using hco⟩
  | cons rn rest ih =>
    intro nodes ctr hctr hco
    cases h : nodes.any (fun m => m.id = rn.id) with
    | true =>
      simpa [insertRaw, h] using ih nodes ctr hctr hco
    | false =>
      have hlen : ctr + 1 = (nodes ++ [freshNode rng ctr rn]).length := by simp [hctr]
      have hco2 : ∀ j (hj : j < (nodes ++ [freshNode rng ctr rn]).length),
          ((nodes ++ [freshNode rng ctr rn]).get ⟨j, hj⟩).x = (rng j).1 ∧
            ((nodes ++ [freshNode rng ctr rn]).get ⟨j, hj⟩).y = (rng j).2.1 ∧
            ((nodes ++ [freshNode rng ctr rn]).get ⟨j, hj⟩).z = (rng j).2.2 := by
        intro j hj
        rcases Nat.lt_or_ge j nodes.length with hlt | hge
        · have := hco j hlt
          simpa [List.get_eq_getElem, List.getElem_append_left hlt] using this
        · have hjeq : j = nodes.length := by
            simp only [List.length_append, List.length_singleton] at hj
            omega
          subst hjeq
          have hg : (nodes ++ [freshNode rng ctr rn]).get ⟨nodes.length, hj⟩ =
              freshNode rng ctr rn := by
            simp [List.get_eq_getElem]
          rw [hg, ← hctr]
          simp [freshNode]
      simpa [insertRaw, h] using ih _ (ctr + 1) hlen hco2

/-- The accumulator's counter equals its node count and the `j`-th
stored node carries the `j`-th coordinate draw, through the whole walk. -/
theorem foldl_buildStep_coord (fs : List String) (rng : Nat → Int × Int × Int)
    (files : List (String × Option String)) :
    ∀ s : BuildState, s.ctr = s.nodes.length →
      (∀ j (h : j < s.nodes.length),
        (s.nodes.get ⟨j, h⟩).x = (rng j).1 ∧ (s.nodes.get ⟨j, h⟩).y = (rng j).2.1 ∧
          (s.nodes.get ⟨j, h⟩).z = (rng j).2.2) →
      (files.foldl (buildStep fs rng) s).ctr = (files.foldl (buildStep fs rng) s).nodes.length ∧
        ∀ j (h : j < (files.foldl (buildStep fs rng) s).nodes.length),
          ((files.foldl (buildStep fs rng) s).nodes.get ⟨j, h⟩).x = (rng j).1 ∧
            ((files.foldl (buildStep fs rng) s).nodes.get ⟨j, h⟩).y = (rng j).2.1 ∧
            ((files.foldl (buildStep fs rng) s).nodes.get ⟨j, h⟩).z = (rng j).2.2 := by
  induction files with
  | nil => exact fun s hctr hco => ⟨hctr, hco⟩
  | cons f rest ih =>
    intro s hctr hco
    have hstep := insertRaw_coord rng (parse_file fs f.1 f.2).1 s.nodes s.ctr hctr hco
    exact ih (buildStep fs rng s f) hstep.1 hstep.2

/-! ## C6: first insertion wins, coordinates assigned once -/

/-- C6: during a build, extending the walked file list only appends to
the stored node list: every node present after processing a prefix of
the walk is still present, with identical id, type and coordinates,
after any further files are processed (later per-file results with an
already-present id are absorbed without altering the stored node).
Moreover the `j`-th inserted node carries exactly the `j`-th fresh
coordinate draw of the stream, assigned at the moment of its first
insertion and never reassigned. -/
theorem first_insertion_wins (fs : List String) (rng : Nat → Int × Int × Int)
    (files1 files2 : List (String × Option String)) :
    (∃ t, (build_graph fs rng (files1 ++ files2)).nodes =
        (build_graph fs rng files1).nodes ++ t) ∧
      ∀ j (h : j < (build_graph fs rng (files1 ++ files2)).nodes.length),
        ((build_graph fs rng (files1 ++ files2)).nodes.get ⟨j, h⟩).x = (rng j).1 ∧
          ((build_graph fs rng (files1 ++ files2)).nodes.get ⟨j, h⟩).y = (rng j).2.1 ∧
          ((build_graph fs rng (files1 ++ files2)).nodes.get ⟨j, h⟩).z = (rng j).2.2 := by
  constructor
  · show ∃ t, (buildStateOf fs rng (files1 ++ files2)).nodes =
        (buildStateOf fs rng files1).nodes ++ t
    unfold buildStateOf
    rw [List.filter_append, List.foldl_append]
    exact foldl_buildStep_nodes_extend fs rng _ _
  · have hinit : ∀ j (h : j < (⟨[], 0, []⟩ : BuildState).nodes.length),
        (((⟨[], 0, []⟩ : BuildState).nodes.get ⟨j, h⟩).x = (rng j).1 ∧
          ((⟨[], 0, []⟩ : BuildState).nodes.get ⟨j, h⟩).y = (rng j).2.1 ∧
          ((⟨[], 0, []⟩ : BuildState).nodes.get ⟨j, h⟩).z = (rng j).2.2) := by
      intro j h
      exact absurd h (by simp)
    exact (foldl_buildStep_coord fs rng
      ((files1 ++ files2).filter (fun f => hasSupportedExt f.1)) ⟨[], 0, []⟩ rfl hinit).2

/-- C6 witness: `a.py` and `b.py` both import `lodash`; the `lodash`
node inserted while scanning `a.py` is unchanged after `b.py` is
processed, and node 1 carries coordinate draw 1. -/
theorem first_insertion_wins_witness :
    (∃ t, (build_graph [] (fun n => ((n : Int), 0, 0))
        ([("a.py", some "import lodash")] ++ [("b.py", some "import lodash")])).nodes =
        (build_graph [] (fun n => ((n : Int), 0, 0)) [("a.py", some "import lodash")]).nodes ++ t) ∧
      ((build_graph [] (fun n => ((n : Int), 0, 0))
          ([("a.py", some "import lodash")] ++ [("b.py", some "import lodash")])).nodes.get
            ⟨1, by decide⟩).x = (((fun n => ((n : Int), 0, 0)) 1).1) ∧
      ((build_graph [] (fun n => ((n : Int), 0, 0))
          ([("a.py", some "import lodash")] ++ [("b.py", some "import lodash")])).nodes.get
            ⟨1, by decide⟩).y = (((fun n => ((n : Int), 0, 0)) 1).2.1) ∧
      ((build_graph [] (fun n => ((n : Int), 0, 0))
          ([("a.py", some "import lodash")] ++ [("b.py", some "import lodash")])).nodes.get
            ⟨1, by decide⟩).z = (((fun n => ((n : Int), 0, 0)) 1).2.2) :=
  ⟨(first_insertion_wins [] (fun n => ((n : Int), 0, 0))
      [("a.py", some "import lodash")] [("b.py", some "import lodash")]).1,
    (first_insertion_wins [] (fun n => ((n : Int), 0, 0))
      [("a.py", some "import lodash")] [("b.py", some "import lodash")]).2 1 (by decide)⟩

/-! ## C7 infrastructure: id uniqueness, dedup, first-seen order -/

theorem insertRaw_id_nodup (rng : Nat → Int × Int × Int) (raws : List RawNode) :
    ∀ nodes ctr, (nodes.map Node.id).Nodup →
      ((insertRaw rng nodes ctr raws).1.map Node.id).Nodup := by
  induction raws with
  | nil => intro nodes ctr h; simpa [insertRaw] using h
  | cons rn rest ih =>
    intro nodes ctr hnd
    cases h : nodes.any (fun m => m.id = rn.id) with
    | true => simpa [insertRaw, h] using ih nodes ctr hnd
    | false =>
      have hnotin : rn.id ∉ nodes.map Node.id := by
        intro hmem
        obtain ⟨m, hmmem, hmid⟩ := List.mem_map.mp hmem
        have := List.any_eq_false.mp h m hmmem
        simp [hmid] at this
      have hnd2 : ((nodes ++ [freshNode rng ctr rn]).map Node.id).Nodup := by
        rw [List.map_append]
        simp [List.nodup_append, hnd, freshNode, hnotin]
      simpa [insertRaw, h] using ih _ (ctr + 1) hnd2

theorem foldl_buildStep_id_nodup (fs : List String) (rng : Nat → Int × Int × Int)
    (files : List (String × Option String)) :
    ∀ s : BuildState, (s.nodes.map Node.id).Nodup →
      ((files.foldl (buildStep fs rng) s).nodes.map Node.id).Nodup := by
  induction files with
  | nil => exact fun s h => h
  | cons f rest ih =>
    intro s hnd
    exact ih (buildStep fs rng s f)
      (insertRaw_id_nodup rng (parse_file fs f.1 f.2).1 s.nodes s.ctr hnd)

theorem dedupAux_pairs_nodup (ls : List Link) :
    ∀ seen, ((dedupAux seen ls).map linkPair).Nodup ∧
      ∀ p ∈ (dedupAux seen ls).map linkPair, p ∉ seen := by
  induction ls with
  | nil => intro seen; simp [dedupAux]
  | cons l rest ih =>
    intro seen
    by_cases hc : linkPair l ∈ seen
    · refine ⟨?_, ?_⟩
      · simpa [dedupAux, hc] using (ih seen).1
      · intro p hp
        exact (ih seen).2 p (by simpa [dedupAux, hc] using hp)
    · constructor
      · simp only [dedupAux, if_neg hc, List.map_cons, List.nodup_cons]
        constructor
        · intro hmem
          have := (ih (linkPair l :: seen)).2 (linkPair l) hmem
          simp at this
        · exact (ih (linkPair l :: seen)).1
      · intro p hp
        simp only [dedupAux, if_neg hc, List.map_cons, List.mem_cons] at hp
        rcases hp with rfl | hp
        · exact hc
        · have := (ih (linkPair l :: seen)).2 p hp
          intro hcp
          exact this (List.mem_cons_of_mem _ hcp)

theorem dedupAux_foldl (ls : List Link) :
    ∀ (seen : List (String × String)) (acc : List (String × String)),
      (∀ p, p ∈ seen ↔ p ∈ acc) →
      acc ++ (dedupAux seen ls).map linkPair =
        (ls.map linkPair).foldl (fun a p => if p ∈ a then a else a ++ [p]) acc := by
  induction ls with
  | nil => intro seen acc h; simp [dedupAux]
  | cons l rest ih =>
    intro seen acc h
    simp only [dedupAux, List.map_cons, List.foldl_cons]
    by_cases hc : linkPair l ∈ seen
    · rw [if_pos hc, if_pos ((h (linkPair l)).mp hc)]
      exact ih seen acc h
    · rw [if_neg hc, if_neg (fun hmem => hc ((h (linkPair l)).mpr hmem))]
      have h2 : ∀ p, p ∈ linkPair l :: seen ↔ p ∈ acc ++ [linkPair l] := by
        intro p
        simp [h p]
        tauto
      have := ih (linkPair l :: seen) (acc ++ [linkPair l]) h2
      rw [← this]
      simp

theorem dedupLinks_pairs_eq_firstSeen (ls : List Link) :
    (dedupLinks ls).map linkPair = firstSeenPairs (ls.map linkPair) := by
  have := dedupAux_foldl ls [] [] (fun p => Iff.rfl)
  simpa [dedupLinks, firstSeenPairs] using this

/-- The raw (pre-dedup) link stream of a full build, in walk order. -/
def rawLinksOf (fs : List String) (files : List (String × Option String)) : List Link :=
  ((files.filter (fun f => hasSupportedExt f.1)).map (fun f => (parse_file fs f.1 f.2).2)).flatten

theorem foldl_buildStep_links (fs : List String) (rng : Nat → Int × Int × Int)
    (files : List (String × Option String)) :
    ∀ s : BuildState, (files.foldl (buildStep fs rng) s).links =
      s.links ++ (files.map (fun f => (parse_file fs f.1 f.2).2)).flatten := by
  induction files with
  | nil => intro s; simp
  | cons f rest ih =>
    intro s
    rw [List.foldl_cons, ih (buildStep fs rng s f)]
    show s.links ++ (parse_file fs f.1 f.2).2 ++ _ = _
    simp [List.append_assoc]

theorem buildStateOf_links (fs : List String) (rng : Nat → Int × Int × Int)
    (files : List (String × Option String)) :
    (buildStateOf fs rng files).links = rawLinksOf fs files := by
  unfold buildStateOf rawLinksOf
  rw [foldl_buildStep_links]
  rfl

/-! ## C8/C9 infrastructure: membership characterizations -/

theorem insertRaw_mem_ids (rng : Nat → Int × Int × Int) (raws : List RawNode) :
    ∀ nodes ctr x, x ∈ (insertRaw rng nodes ctr raws).1.map Node.id ↔
      (x ∈ nodes.map Node.id ∨ x ∈ raws.map RawNode.id) := by
  induction raws with
  | nil => simp [insertRaw]
  | cons rn rest ih =>
    intro nodes ctr x
    cases h : nodes.any (fun m => m.id = rn.id) with
    | true =>
      have hin : rn.id ∈ nodes.map Node.id := by
        obtain ⟨m, hm, he⟩ := List.any_eq_true.mp h
        simp only [decide_eq_true_eq] at he
        exact List.mem_map.mpr ⟨m, hm, he⟩
      rw [show insertRaw rng nodes ctr (rn :: rest) = insertRaw rng nodes ctr rest from by
        simp [insertRaw, h]]
      rw [ih nodes ctr x]
      simp only [List.map_cons, List.mem_cons]
      constructor
      · rintro (ha | hb)
        · exact Or.inl ha
        · exact Or.inr (Or.inr hb)
      · rintro (ha | rfl | hb)
        · exact Or.inl ha
        · exact Or.inl hin
        · exact Or.inr hb
    | false =>
      rw [show insertRaw rng nodes ctr (rn :: rest) =
          insertRaw rng (nodes ++ [freshNode rng ctr rn]) (ctr + 1) rest from by
        simp [insertRaw, h]]
      rw [ih _ (ctr + 1) x]
      simp only [List.map_append, List.mem_append, List.map_cons, List.mem_cons,
        List.map_nil, List.mem_singleton, freshNode]
      tauto


theorem foldl_buildStep_mem_ids (fs : List String) (rng : Nat → Int × Int × Int)
    (files : List (String × Option String)) :
    ∀ s x, x ∈ (files.foldl (buildStep fs rng) s).nodes.map Node.id ↔
      (x ∈ s.nodes.map Node.id ∨
        ∃ f ∈ files, x ∈ (parse_file fs f.1 f.2).1.map RawNode.id) := by
  induction files with
  | nil => simp
  | cons f rest ih =>
    intro s x
    rw [List.foldl_cons, ih (buildStep fs rng s f) x]
    have hstep : x ∈ (buildStep fs rng s f).nodes.map Node.id ↔
        (x ∈ s.nodes.map Node.id ∨ x ∈ (parse_file fs f.1 f.2).1.map RawNode.id) :=
      insertRaw_mem_ids rng (parse_file fs f.1 f.2).1 s.nodes s.ctr x
    rw [hstep]
    simp only [List.mem_cons]
    constructor
    · rintro ((ha | hb) | ⟨g, hg, hx⟩)
      · exact Or.inl ha
      · exact Or.inr ⟨f, Or.inl rfl, hb⟩
      · exact Or.inr ⟨g, Or.inr hg, hx⟩
    · rintro (ha | ⟨g, (rfl | hg), hx⟩)
      · exact Or.inl (Or.inl ha)
      · exact Or.inl (Or.inr hx)
      · exact Or.inr ⟨g, hg, hx⟩

theorem mem_dedupAux_pair (ls : List Link) :
    ∀ seen p, p ∉ seen →
      (p ∈ (dedupAux seen ls).map linkPair ↔ p ∈ ls.map linkPair) := by
  induction ls with
  | nil => simp [dedupAux]
  | cons l rest ih =>
    intro seen p hp
    by_cases hc : linkPair l ∈ seen
    · rw [show dedupAux seen (l :: rest) = dedupAux seen rest from by simp [dedupAux, hc]]
      rw [ih seen p hp]
      simp only [List.map_cons, List.mem_cons]
      constructor
      · exact Or.inr
      · rintro (rfl | hb)
        · exact absurd hc hp
        · exact hb
    · rw [show dedupAux seen (l :: rest) = l :: dedupAux (linkPair l :: seen) rest from by
        simp [dedupAux, hc]]
      simp only [List.map_cons, List.mem_cons]
      by_cases hpl : p = linkPair l
      · subst hpl; simp
      · have hp2 : p ∉ linkPair l :: seen := by
          intro hmem
          rcases List.mem_cons.mp hmem with h1 | h2
          · exact hpl h1
          · exact hp h2
        rw [ih (linkPair l :: seen) p hp2]

theorem mem_dedupLinks_pair (ls : List Link) (p : String × String) :
    p ∈ (dedupLinks ls).map linkPair ↔ p ∈ ls.map linkPair :=
  mem_dedupAux_pair ls [] p (by simp)

theorem classNodesOf_ids (rel : String) (ms : List String) :
    (classNodesOf rel ms).map RawNode.id = ms.map (fun m => rel ++ "::" ++ m) := by
  simp [classNodesOf, List.map_map, Function.comp]

theorem funcNodesOf_ids (rel : String) (ms : List String) :
    (funcNodesOf rel ms).map RawNode.id = (funcNamesOf ms).map (fun n => rel ++ "::" ++ n) := by
  simp [funcNodesOf, List.map_map, Function.comp]

theorem importNodesOf_ids (fs : List String) (ms : List String) :
    (importNodesOf fs ms).map RawNode.id =
      (importTokensOf ms).map (fun imp => resolve_import fs imp) := by
  simp [importNodesOf, List.map_map, Function.comp]

theorem extendsNodesOf_ids (ms : List String) :
    (extendsNodesOf ms).map RawNode.id = extendsBasesOf ms := by
  rw [extendsNodesOf, List.map_map]
  exact List.map_id _

theorem parse_file_link_endpoints (fs : List String) (rel : String) (content? : Option String) :
    ∀ l ∈ (parse_file fs rel content?).2,
      l.source ∈ (parse_file fs rel content?).1.map RawNode.id ∧
      l.target ∈ (parse_file fs rel content?).1.map RawNode.id := by
  cases content? with
  | none => simp [parse_file]
  | some content =>
    intro l hl
    simp only [parse_file, parse_file_from_matches, List.mem_append] at hl
    simp only [parse_file, parse_file_from_matches, List.map_cons, List.map_append,
      List.mem_cons, List.mem_append, classNodesOf_ids, funcNodesOf_ids,
      importNodesOf_ids, extendsNodesOf_ids]
    rcases hl with ((hcl | hfn) | him) | hex
    · obtain ⟨m, hm, hlm⟩ := List.mem_map.mp hcl
      subst hlm
      exact ⟨Or.inl rfl, Or.inr (Or.inl (Or.inl (Or.inl (List.mem_map.mpr ⟨m, hm, rfl⟩))))⟩
    · obtain ⟨m, hm, hlm⟩ := List.mem_map.mp hfn
      subst hlm
      exact ⟨Or.inl rfl, Or.inr (Or.inl (Or.inl (Or.inr (List.mem_map.mpr ⟨m, hm, rfl⟩))))⟩
    · obtain ⟨m, hm, hlm⟩ := List.mem_map.mp him
      subst hlm
      exact ⟨Or.inl rfl, Or.inr (Or.inl (Or.inr (List.mem_map.mpr ⟨m, hm, rfl⟩)))⟩
    · obtain ⟨m, hm, hlm⟩ := List.mem_map.mp hex
      subst hlm
      exact ⟨Or.inl rfl, Or.inr (Or.inr hm)⟩

/-! ## C7, C8, C9: dedup invariant, endpoint closure, topology determinism -/

theorem mem_of_mem_dedupAux (ls : List Link) : ∀ seen l, l ∈ dedupAux seen ls → l ∈ ls := by
  induction ls with
  | nil => simp [dedupAux]
  | cons a rest ih =>
    intro seen l hl
    by_cases hc : linkPair a ∈ seen
    · exact List.mem_cons_of_mem _ (ih seen l (by simpa [dedupAux, hc] using hl))
    · have hl2 : l ∈ a :: dedupAux (linkPair a :: seen) rest := by simpa [dedupAux, hc] using hl
      rcases List.mem_cons.mp hl2 with rfl | h2
      · exact List.mem_cons_self _ _
      · exact List.mem_cons_of_mem _ (ih _ l h2)

theorem build_ids_mem (fs : List String) (rng : Nat → Int × Int × Int)
    (files : List (String × Option String)) (x : String) :
    x ∈ (build_graph fs rng files).nodes.map Node.id ↔
      ∃ f ∈ files.filter (fun f => hasSupportedExt f.1),
        x ∈ (parse_file fs f.1 f.2).1.map RawNode.id := by
  show x ∈ (buildStateOf fs rng files).nodes.map Node.id ↔ _
  unfold buildStateOf
  rw [foldl_buildStep_mem_ids]
  simp

theorem build_pairs_mem (fs : List String) (rng : Nat → Int × Int × Int)
    (files : List (String × Option String)) (p : String × String) :
    p ∈ (build_graph fs rng files).links.map linkPair ↔
      ∃ f ∈ files.filter (fun f => hasSupportedExt f.1),
        p ∈ (parse_file fs f.1 f.2).2.map linkPair := by
  show p ∈ (dedupLinks (buildStateOf fs rng files).links).map linkPair ↔ _
  rw [mem_dedupLinks_pair, buildStateOf_links]
  unfold rawLinksOf
  constructor
  · intro h
    obtain ⟨l, hlmem, hlp⟩ := List.mem_map.mp h
    obtain ⟨ls2, hls2, hlin⟩ := List.mem_flatten.mp hlmem
    obtain ⟨f, hf, hfe⟩ := List.mem_map.mp hls2
    subst hfe
    exact ⟨f, hf, List.mem_map.mpr ⟨l, hlin, hlp⟩⟩
  · rintro ⟨f, hf, hp⟩
    obtain ⟨l, hlin, hlp⟩ := List.mem_map.mp hp
    exact List.mem_map.mpr ⟨l,
      List.mem_flatten.mpr ⟨(parse_file fs f.1 f.2).2, List.mem_map.mpr ⟨f, hf, rfl⟩, hlin⟩, hlp⟩

/-- C7: dedup invariant.  In every built graph no two nodes share an id,
no two links share a `(source, target)` pair, and the link sequence is
exactly the raw link stream's pairs in first-seen order (the spec-side
`firstSeenPairs` fold). -/
theorem dedup_invariant (fs : List String) (rng : Nat → Int × Int × Int)
    (files : List (String × Option String)) :
    ((build_graph fs rng files).nodes.map Node.id).Nodup ∧
      ((build_graph fs rng files).links.map linkPair).Nodup ∧
      (build_graph fs rng files).links.map linkPair =
        firstSeenPairs ((rawLinksOf fs files).map linkPair) := by
  refine ⟨?_, ?_, ?_⟩
  · show ((buildStateOf fs rng files).nodes.map Node.id).Nodup
    exact foldl_buildStep_id_nodup fs rng _ ⟨[], 0, []⟩ (by simp)
  · show ((dedupLinks (buildStateOf fs rng files).links).map linkPair).Nodup
    exact (dedupAux_pairs_nodup (buildStateOf fs rng files).links []).1
  · show (dedupLinks (buildStateOf fs rng files).links).map linkPair = _
    rw [dedupLinks_pairs_eq_firstSeen, buildStateOf_links]

/-- C8: link endpoint closure.  Every link of a built graph has both its
source id and its target id present among the returned nodes' ids —
including targets synthesized by the same extraction pass (inheritance
bases, import targets) and files whose read failed. -/
theorem link_endpoints_closed (fs : List String) (rng : Nat → Int × Int × Int)
    (files : List (String × Option String)) :
    ∀ l ∈ (build_graph fs rng files).links,
      (∃ n ∈ (build_graph fs rng files).nodes, n.id = l.source) ∧
      (∃ n ∈ (build_graph fs rng files).nodes, n.id = l.target) := by
  intro l hl
  have hraw : l ∈ rawLinksOf fs files := by
    have h1 : l ∈ dedupLinks (buildStateOf fs rng files).links := hl
    have h2 := mem_of_mem_dedupAux _ [] l h1
    rwa [buildStateOf_links] at h2
  obtain ⟨ls2, hls2, hlin⟩ := List.mem_flatten.mp hraw
  obtain ⟨f, hf, hfe⟩ := List.mem_map.mp hls2
  subst hfe
  have hend := parse_file_link_endpoints fs f.1 f.2 l hlin
  have hmem : ∀ x, x ∈ (parse_file fs f.1 f.2).1.map RawNode.id →
      ∃ n ∈ (build_graph fs rng files).nodes, n.id = x := by
    intro x hx
    have hx2 : x ∈ (buildStateOf fs rng files).nodes.map Node.id := by
      unfold buildStateOf
      rw [foldl_buildStep_mem_ids]
      exact Or.inr ⟨f, hf, hx⟩
    obtain ⟨n, hn, hnx⟩ := List.mem_map.mp hx2
    exact ⟨n, hn, hnx⟩
  exact ⟨hmem _ hend.1, hmem _ hend.2⟩

/-- C8 witness: in the one-file build of `a.py` containing
`def foo(): pass`, the containment link's endpoints both exist as
nodes. -/
theorem link_endpoints_closed_witness :
    (⟨"a.py", "a.py::foo"⟩ : Link) ∈
        (build_graph [] (fun _ => (0, 0, 0)) [("a.py", some "def foo(): pass")]).links ∧
      (∃ n ∈ (build_graph [] (fun _ => (0, 0, 0)) [("a.py", some "def foo(): pass")]).nodes,
          n.id = (⟨"a.py", "a.py::foo"⟩ : Link).source) ∧
      (∃ n ∈ (build_graph [] (fun _ => (0, 0, 0)) [("a.py", some "def foo(): pass")]).nodes,
          n.id = (⟨"a.py", "a.py::foo"⟩ : Link).target) :=
  ⟨by decide,
    link_endpoints_closed [] (fun _ => (0, 0, 0)) [("a.py", some "def foo(): pass")]
      ⟨"a.py", "a.py::foo"⟩ (by decide)⟩

/-- C9: determinism of topology.  For a fixed file tree and contents,
two runs differing in walk order (any permutation) and in random
coordinate draws produce the same set of node ids and the same set of
`(source, target)` link pairs. -/
theorem topology_determinism (fs : List String) (rng1 rng2 : Nat → Int × Int × Int)
    (files1 files2 : List (String × Option String)) (hperm : files1.Perm files2) :
    (∀ i, i ∈ (build_graph fs rng1 files1).nodes.map Node.id ↔
          i ∈ (build_graph fs rng2 files2).nodes.map Node.id) ∧
      ∀ p, p ∈ (build_graph fs rng1 files1).links.map linkPair ↔
          p ∈ (build_graph fs rng2 files2).links.map linkPair := by
  have hp2 : (files1.filter (fun f => hasSupportedExt f.1)).Perm
      (files2.filter (fun f => hasSupportedExt f.1)) := hperm.filter _
  constructor
  · intro i
    rw [build_ids_mem, build_ids_mem]
    constructor
    · rintro ⟨f, hf, hx⟩
      exact ⟨f, hp2.mem_iff.mp hf, hx⟩
    · rintro ⟨f, hf, hx⟩
      exact ⟨f, hp2.mem_iff.mpr hf, hx⟩
  · intro p
    rw [build_pairs_mem, build_pairs_mem]
    constructor
    · rintro ⟨f, hf, hx⟩
      exact ⟨f, hp2.mem_iff.mp hf, hx⟩
    · rintro ⟨f, hf, hx⟩
      exact ⟨f, hp2.mem_iff.mpr hf, hx⟩

/-- C9 witness: swapping the walk order of `a.py` and `b.py` and
changing the coordinate stream leaves the id `b.py::bar` and the pair
`(a.py, lodash)` in both graphs. -/
theorem topology_determinism_witness :
    ("b.py::bar" ∈ (build_graph [] (fun n => ((n : Int), 0, 0))
        [("a.py", some "import lodash"), ("b.py", some "def bar(): pass")]).nodes.map Node.id ↔
      "b.py::bar" ∈ (build_graph [] (fun _ => ((7 : Int), 7, 7))
        [("b.py", some "def bar(): pass"), ("a.py", some "import lodash")]).nodes.map Node.id) ∧
      (("a.py", "lodash") ∈ (build_graph [] (fun n => ((n : Int), 0, 0))
          [("a.py", some "import lodash"), ("b.py", some "def bar(): pass")]).links.map linkPair ↔
        ("a.py", "lodash") ∈ (build_graph [] (fun _ => ((7 : Int), 7, 7))
          [("b.py", some "def bar(): pass"), ("a.py", some "import lodash")]).links.map linkPair) :=
  ⟨(topology_determinism [] (fun n => ((n : Int), 0, 0)) (fun _ => ((7 : Int), 7, 7))
      [("a.py", some "import lodash"), ("b.py", some "def bar(): pass")]
      [("b.py", some "def bar(): pass"), ("a.py", some "import lodash")]
      (List.Perm.swap _ _ _)).1 "b.py::bar",
    (topology_determinism [] (fun n => ((n : Int), 0, 0)) (fun _ => ((7 : Int), 7, 7))
      [("a.py", some "import lodash"), ("b.py", some "def bar(): pass")]
      [("b.py", some "def bar(): pass"), ("a.py", some "import lodash")]
      (List.Perm.swap _ _ _)).2 ("a.py", "lodash")⟩

/-! ## C10 infrastructure: generic findall-driver lemmas -/

/-! C10 machinery: generic facts about the findall driver. -/

theorem scan_nil (try1 : Option Char → List Char → Option (List Char × List Char))
    (n : Nat) (pr : Option Char) : scanAll try1 n pr [] = [] := by
  cases n <;> rfl

theorem scan_step_none {try1 : Option Char → List Char → Option (List Char × List Char)}
    {pr : Option Char} {c : Char} {l : List Char} (n : Nat)
    (h : try1 pr (c :: l) = none) :
    scanAll try1 (n + 1) pr (c :: l) = scanAll try1 n (some c) l := by
  simp [scanAll, h]

theorem scan_step_some {try1 : Option Char → List Char → Option (List Char × List Char)}
    {pr : Option Char} {c : Char} {l cap rest : List Char} (n : Nat)
    (h : try1 pr (c :: l) = some (cap, rest)) :
    scanAll try1 (n + 1) pr (c :: l) = cap :: scanAll try1 n (lastBefore (c :: l) rest) rest := by
  simp [scanAll, h]

theorem scanAll_fuel_ge (try1 : Option Char → List Char → Option (List Char × List Char))
    (hcons : ∀ pr c cs cap rest, try1 pr (c :: cs) = some (cap, rest) → rest.length ≤ cs.length) :
    ∀ (k n m : Nat) (pr : Option Char) (cs : List Char), cs.length ≤ k →
      cs.length ≤ n → cs.length ≤ m → scanAll try1 n pr cs = scanAll try1 m pr cs := by
  intro k
  induction k with
  | zero =>
    intro n m pr cs hk _ _
    have hnil : cs = [] := List.eq_nil_of_length_eq_zero (Nat.le_zero.mp hk)
    subst hnil
    rw [scan_nil, scan_nil]
  | succ k ih =>
    intro n m pr cs hk hn hm
    cases cs with
    | nil => rw [scan_nil, scan_nil]
    | cons c l =>
      cases n with
      | zero => simp at hn
      | succ n2 =>
        cases m with
        | zero => simp at hm
        | succ m2 =>
          cases ht : try1 pr (c :: l) with
          | none =>
            rw [scan_step_none n2 ht, scan_step_none m2 ht]
            exact ih n2 m2 (some c) l (by simpa using hk) (by simpa using hn) (by simpa using hm)
          | some capRest =>
            obtain ⟨cap, rest⟩ := capRest
            rw [scan_step_some n2 ht, scan_step_some m2 ht]
            have hr := hcons pr c l cap rest ht
            have hll : l.length ≤ k := by simpa using hk
            have hln : l.length ≤ n2 := by simpa using hn
            have hlm : l.length ≤ m2 := by simpa using hm
            rw [ih n2 m2 _ rest (le_trans hr hll) (le_trans hr hln) (le_trans hr hlm)]

/-- The driver at its canonical fuel (the input length), which is what
`findAllPat` runs. -/
def scanF (try1 : Option Char → List Char → Option (List Char × List Char))
    (pr : Option Char) (cs : List Char) : List (List Char) :=
  scanAll try1 cs.length pr cs

theorem findAllPat_eq_scanF (try1 : Option Char → List Char → Option (List Char × List Char))
    (s : String) : findAllPat try1 s = (scanF try1 none s.data).map String.mk := rfl

theorem scanF_nil (try1 : Option Char → List Char → Option (List Char × List Char))
    (pr : Option Char) : scanF try1 pr [] = [] := rfl

theorem scanF_step_none {try1 : Option Char → List Char → Option (List Char × List Char)}
    {pr : Option Char} {c : Char} {l : List Char} (h : try1 pr (c :: l) = none) :
    scanF try1 pr (c :: l) = scanF try1 (some c) l := by
  show scanAll try1 (l.length + 1) pr (c :: l) = _
  rw [scan_step_none l.length h]
  rfl

theorem scanF_step_some {try1 : Option Char → List Char → Option (List Char × List Char)}
    {pr : Option Char} {c : Char} {l cap rest : List Char}
    (hcons : ∀ pr c cs cap rest, try1 pr (c :: cs) = some (cap, rest) → rest.length ≤ cs.length)
    (h : try1 pr (c :: l) = some (cap, rest)) :
    scanF try1 pr (c :: l) = cap :: scanF try1 (lastBefore (c :: l) rest) rest := by
  show scanAll try1 (l.length + 1) pr (c :: l) = _
  rw [scan_step_some l.length h]
  have hr := hcons pr c l cap rest h
  rw [scanAll_fuel_ge try1 hcons l.length l.length rest.length _ rest hr hr (le_refl _)]
  rfl

/-- Scanning a chunk of word characters on which the matcher fails at
the chunk head and everywhere after a word character: the scan walks
through without a match, ending with the chunk's last character as the
previous character. -/
theorem scanF_chunk_word {try1 : Option Char → List Char → Option (List Char × List Char)}
    (hbnd : ∀ c cs, isWordChar c = true → try1 (some c) cs = none) :
    ∀ (X : List Char) (x : Char) (pr : Option Char) (l : List Char),
      isWordChar x = true → (∀ c ∈ X, isWordChar c = true) →
      try1 pr (x :: (X ++ l)) = none →
      scanF try1 pr (x :: (X ++ l)) = scanF try1 (some ((x :: X).getLast (by simp))) l := by
  intro X
  induction X with
  | nil =>
    intro x pr l hx _ h0
    rw [scanF_step_none h0]
    rfl
  | cons y X2 ih =>
    intro x pr l hx hX h0
    rw [scanF_step_none h0]
    simp only [List.cons_append]
    have h1 : try1 (some x) (y :: (X2 ++ l)) = none := hbnd x _ hx
    rw [ih y (some x) l (hX y (by simp)) (fun c hc => hX c (by simp [hc])) h1]
    have hg : (x :: y :: X2).getLast (by simp) = (y :: X2).getLast (by simp) :=
      List.getLast_cons (by simp)
    rw [hg]

/-- If the matcher fails on every suffix of the input, the scan finds
nothing. -/
theorem scanF_all_none {try1 : Option Char → List Char → Option (List Char × List Char)} :
    ∀ (cs : List Char) (pr : Option Char),
      (∀ pr2 sfx, sfx <:+ cs → try1 pr2 sfx = none) → scanF try1 pr cs = [] := by
  intro cs
  induction cs with
  | nil => intro pr _; rfl
  | cons c l ih =>
    intro pr h
    rw [scanF_step_none (h pr (c :: l) (List.suffix_refl _))]
    exact ih (some c) (fun pr2 sfx hs => h pr2 sfx (hs.trans (List.suffix_cons c l)))

/-! Literal-strip facts. -/

theorem stripLit_self (kw : List Char) : ∀ l, stripLit kw (kw ++ l) = some l := by
  induction kw with
  | nil => intro l; rfl
  | cons k kw2 ih => intro l; simp [stripLit, ih l]

theorem stripLit_length (kw : List Char) :
    ∀ cs r, stripLit kw cs = some r → r.length + kw.length = cs.length := by
  induction kw with
  | nil =>
    intro cs r h
    simp [stripLit] at h
    subst h
    simp
  | cons k kw2 ih =>
    intro cs r h
    cases cs with
    | nil => simp [stripLit] at h
    | cons c cs2 =>
      by_cases hc : c = k
      · simp only [stripLit, if_pos hc] at h
        have := ih cs2 r h
        simp [List.length_cons]
        omega
      · simp [stripLit, hc] at h

theorem mem_of_stripLit_some (kw : List Char) :
    ∀ cs r, stripLit kw cs = some r → ∀ c ∈ kw, c ∈ cs := by
  induction kw with
  | nil => intro cs r _ c hc; simp at hc
  | cons k kw2 ih =>
    intro cs r h c hc
    cases cs with
    | nil => simp [stripLit] at h
    | cons d cs2 =>
      by_cases hd : d = k
      · subst hd
        simp only [stripLit, if_pos rfl] at h
        rcases List.mem_cons.mp hc with rfl | hc2
        · exact List.mem_cons_self _ _
        · exact List.mem_cons_of_mem _ (ih cs2 r h c hc2)
      · simp [stripLit, hd] at h

theorem stripLit_append_cases (kw : List Char) :
    ∀ (X r l : List Char), stripLit kw (X ++ l) = some r →
      (∃ t, X = kw ++ t ∧ r = t ++ l) ∨
        (∃ kw2, kw = X ++ kw2 ∧ stripLit kw2 l = some r) := by
  induction kw with
  | nil =>
    intro X r l h
    simp only [stripLit] at h
    exact Or.inl ⟨X, rfl, by injection h with h2; exact h2.symm⟩
  | cons k kw2 ih =>
    intro X r l h
    cases X with
    | nil => exact Or.inr ⟨k :: kw2, rfl, h⟩
    | cons x X2 =>
      by_cases hx : x = k
      · subst hx
        simp only [List.cons_append, stripLit, if_pos rfl] at h
        rcases ih X2 r l h with ⟨t, hXe, hre⟩ | ⟨kw3, hke, hs⟩
        · exact Or.inl ⟨t, by rw [List.cons_append, hXe], hre⟩
        · exact Or.inr ⟨kw3, by rw [List.cons_append, hke], hs⟩
      · simp [stripLit, hx] at h

/-! ## C10 infrastructure: identifier characters and chunk take/drop -/

/-! C10 machinery: identifier-character facts. -/

theorem ident_ne {c : Char} (h : isIdentChar c = true) {d : Char}
    (hd : isIdentChar d = false) : c ≠ d := by
  intro he
  subst he
  rw [h] at hd
  simp at hd

theorem ident_word {c : Char} (h : isIdentChar c = true) : isWordChar c = true := h

theorem ident_not_space {c : Char} (h : isIdentChar c = true) : isSpaceChar c = false := by
  have h1 : c ≠ ' ' := ident_ne h (by decide)
  have h2 : c ≠ '\t' := ident_ne h (by decide)
  have h3 : c ≠ '\n' := ident_ne h (by decide)
  have h4 : c ≠ '\r' := ident_ne h (by decide)
  have h5 : c ≠ Char.ofNat 11 := ident_ne h (by decide)
  have h6 : c ≠ Char.ofNat 12 := ident_ne h (by decide)
  simp [isSpaceChar, h1, h2, h3, h4, h5, h6]

theorem ident_import {c : Char} (h : isIdentChar c = true) : isImportChar c = true := by
  simp only [isIdentChar, Bool.or_eq_true] at h
  rcases h with (h | h) | h <;> simp [isImportChar, h]

/-! C10 machinery: take/drop over a satisfied chunk. -/

theorem takeWhile_append_all (p : Char → Bool) (A l : List Char)
    (hA : ∀ a ∈ A, p a = true) : (A ++ l).takeWhile p = A ++ l.takeWhile p := by
  induction A with
  | nil => simp
  | cons a A2 ih =>
    simp only [List.cons_append, List.takeWhile_cons, hA a (by simp), if_true]
    rw [ih (fun b hb => hA b (by simp [hb]))]

theorem dropWhile_append_all (p : Char → Bool) (A l : List Char)
    (hA : ∀ a ∈ A, p a = true) : (A ++ l).dropWhile p = l.dropWhile p := by
  induction A with
  | nil => simp
  | cons a A2 ih =>
    simp only [List.cons_append, List.dropWhile_cons, hA a (by simp), if_true]
    exact ih (fun b hb => hA b (by simp [hb]))

/-! ## C10 infrastructure: matcher behaviour on a from-import line -/

/-! C10 machinery: behaviour of the matchers on the shapes occurring in
a `from X import Y` line. -/

theorem importData : ("import" : String).data = ['i', 'm', 'p', 'o', 'r', 't'] := rfl

theorem fromData : ("from" : String).data = ['f', 'r', 'o', 'm'] := rfl

theorem kwCapTry_head_ne (k : Char) (kw2 : List Char) (first restC : Char → Bool)
    (pr : Option Char) (c : Char) (rest : List Char) (hc : c ≠ k) :
    kwCapTry (k :: kw2) first restC pr (c :: rest) = none := by
  by_cases hb : wordBoundaryOk pr <;> simp [kwCapTry, stripLit, hb, hc]

theorem kwCapTry_word_prev (kw : List Char) (first restC : Char → Bool)
    (c : Char) (cs : List Char) (h : isWordChar c = true) :
    kwCapTry kw first restC (some c) cs = none := by
  simp [kwCapTry, wordBoundaryOk, h]

theorem fromTry_head_ne (pr : Option Char) (c : Char) (rest : List Char) (hc : c ≠ 'f') :
    fromTry pr (c :: rest) = none := by
  by_cases hb : wordBoundaryOk pr <;> simp [fromTry, fromData, stripLit, hb, hc]

theorem fromTry_word_prev (c : Char) (cs : List Char) (h : isWordChar c = true) :
    fromTry (some c) cs = none := by
  simp [fromTry, wordBoundaryOk, h]

/-- The shared strip-then-require-space prefix of the matchers: on an
identifier chunk `X` followed by nothing or by a space, stripping a
space-free keyword either fails or leaves a rest on which `\s+` fails —
except in the excluded case `X = kw` with a space following. -/
theorem stripLit_ident_chunk (kw : List Char) (hkwsp : ∀ c ∈ kw, c ≠ ' ')
    (X l : List Char) (hX : ∀ c ∈ X, isIdentChar c = true)
    (hl : l = [] ∨ ∃ l2, l = ' ' :: l2) (hXkw : X = kw → l = []) :
    stripLit kw (X ++ l) = none ∨
      ∃ r, stripLit kw (X ++ l) = some r ∧ r.takeWhile isSpaceChar = [] := by
  cases hs : stripLit kw (X ++ l) with
  | none => exact Or.inl rfl
  | some r =>
    refine Or.inr ⟨r, rfl, ?_⟩
    rcases stripLit_append_cases kw X r l hs with ⟨t, hXe, hre⟩ | ⟨kw2, hke, hs2⟩
    · cases t with
      | nil =>
        have hXeq : X = kw := by simpa using hXe
        have hle : l = [] := hXkw hXeq
        subst hle
        simp only [List.nil_append, List.append_nil] at hre
        subst hre
        simp
      | cons c t2 =>
        have hc : isIdentChar c = true := hX c (by rw [hXe]; simp)
        subst hre
        simp [List.takeWhile_cons, ident_not_space hc]
    · cases kw2 with
      | nil =>
        have hXeq : X = kw := by simpa using hke.symm
        have hle : l = [] := hXkw hXeq
        subst hle
        simp only [stripLit] at hs2
        injection hs2 with hr2
        subst hr2
        simp
      | cons k kw3 =>
        rcases hl with rfl | ⟨l2, rfl⟩
        · simp [stripLit] at hs2
        · have hk : (' ' : Char) ≠ k := fun h => hkwsp k (by rw [hke]; simp) h.symm
          simp [stripLit, hk] at hs2

theorem kwCapTry_ident_chunk_none (kw : List Char) (first restC : Char → Bool)
    (hkwsp : ∀ c ∈ kw, c ≠ ' ') (X l : List Char) (pr : Option Char)
    (hX : ∀ c ∈ X, isIdentChar c = true)
    (hl : l = [] ∨ ∃ l2, l = ' ' :: l2) (hXkw : X = kw → l = []) :
    kwCapTry kw first restC pr (X ++ l) = none := by
  by_cases hb : wordBoundaryOk pr
  case neg => simp [kwCapTry, hb]
  rcases stripLit_ident_chunk kw hkwsp X l hX hl hXkw with hs | ⟨r, hs, hr⟩
  · simp [kwCapTry, hb, hs]
  · simp [kwCapTry, hb, hs, hr]

theorem fromTry_ident_chunk_none (X l : List Char) (pr : Option Char)
    (hX : ∀ c ∈ X, isIdentChar c = true)
    (hl : l = [] ∨ ∃ l2, l = ' ' :: l2) (hXkw : X = "from".data → l = []) :
    fromTry pr (X ++ l) = none := by
  by_cases hb : wordBoundaryOk pr
  case neg => simp [fromTry, hb]
  rcases stripLit_ident_chunk "from".data (by rw [fromData]; decide) X l hX hl hXkw
    with hs | ⟨r, hs, hr⟩
  · simp [fromTry, hb, hs]
  · simp [fromTry, hb, hs, hr]

theorem requireTry_no_paren (pr : Option Char) (cs : List Char) (h : ('(' : Char) ∉ cs) :
    requireTry pr cs = none := by
  cases hs : stripLit "require(".data cs with
  | none => by_cases hb : wordBoundaryOk pr <;> simp [requireTry, hb, hs]
  | some r =>
    exact absurd (mem_of_stripLit_some "require(".data cs r hs '(' (by decide)) h

theorem includeTry_no_hash (pr : Option Char) (cs : List Char) (h : ('#' : Char) ∉ cs) :
    includeTry pr cs = none := by
  cases hs : stripLit "#include".data cs with
  | none => simp [includeTry, hs]
  | some r =>
    exact absurd (mem_of_stripLit_some "#include".data cs r hs '#' (by decide)) h

/-- Dropping a prefix never lengthens a list. -/
theorem dropWhileLenLe (p : Char → Bool) : ∀ l : List Char, (l.dropWhile p).length ≤ l.length := by
  intro l
  induction l with
  | nil => simp
  | cons a l2 ih =>
    rw [List.dropWhile_cons]
    by_cases h : p a
    · simp only [h, if_true, List.length_cons]
      omega
    · simp [h]

/-- A successful keyword-capture match consumes at least one character. -/
theorem kwCapTry_consumes (kw : List Char) (first restC : Char → Bool) (hkw : kw ≠ []) :
    ∀ pr c cs cap rest, kwCapTry kw first restC pr (c :: cs) = some (cap, rest) →
      rest.length ≤ cs.length := by
  intro pr c cs cap rest h
  unfold kwCapTry at h
  by_cases hb : wordBoundaryOk pr
  case neg => simp [hb] at h
  rw [if_pos hb] at h
  cases hs : stripLit kw (c :: cs) with
  | none => rw [hs] at h; simp at h
  | some r1 =>
    rw [hs] at h
    simp only [] at h
    have hr1 : r1.length + kw.length = cs.length + 1 := stripLit_length kw (c :: cs) r1 hs
    by_cases ht : r1.takeWhile isSpaceChar = []
    · rw [if_pos ht] at h; simp at h
    · rw [if_neg ht] at h
      cases hd : r1.dropWhile isSpaceChar with
      | nil => rw [hd] at h; simp at h
      | cons d r3 =>
        rw [hd] at h
        cases hf : first d with
        | false => simp [hf] at h
        | true =>
          simp only [hf, if_true, Option.some.injEq, Prod.mk.injEq] at h
          have hrest : rest = r3.dropWhile restC := h.2.symm
          have h1 : (r3.dropWhile restC).length ≤ r3.length := dropWhileLenLe _ _
          have h2 : (d :: r3).length ≤ r1.length := hd ▸ dropWhileLenLe _ _
          have h3 : 1 ≤ kw.length := List.length_pos.mpr hkw
          rw [hrest]
          simp only [List.length_cons] at h2
          omega

/-- A successful from-pattern match consumes at least one character. -/
theorem fromTry_consumes :
    ∀ pr c cs cap rest, fromTry pr (c :: cs) = some (cap, rest) →
      rest.length ≤ cs.length := by
  intro pr c cs cap rest h
  unfold fromTry at h
  by_cases hb : wordBoundaryOk pr
  case neg => simp [hb] at h
  rw [if_pos hb] at h
  cases hs : stripLit "from".data (c :: cs) with
  | none => rw [hs] at h; simp at h
  | some r1 =>
    rw [hs] at h
    simp only [] at h
    have hr1 : r1.length + ("from".data).length = cs.length + 1 :=
      stripLit_length "from".data (c :: cs) r1 hs
    by_cases ht : r1.takeWhile isSpaceChar = []
    · rw [if_pos ht] at h; simp at h
    · rw [if_neg ht] at h
      cases hd : r1.dropWhile isSpaceChar with
      | nil => rw [hd] at h; simp at h
      | cons d r3 =>
        rw [hd] at h
        cases hf : isImportChar d with
        | false => simp [hf] at h
        | true =>
          simp only [hf, if_true] at h
          by_cases ht2 : (r3.dropWhile isImportChar).takeWhile isSpaceChar = []
          · rw [if_pos ht2] at h; simp at h
          · rw [if_neg ht2] at h
            cases hs2 : stripLit "import".data
                ((r3.dropWhile isImportChar).dropWhile isSpaceChar) with
            | none => rw [hs2] at h; simp at h
            | some r5 =>
              rw [hs2] at h
              simp only [Option.some.injEq, Prod.mk.injEq] at h
              have hrest : rest = r5 := h.2.symm
              have h1 : r5.length + ("import".data).length =
                  ((r3.dropWhile isImportChar).dropWhile isSpaceChar).length :=
                stripLit_length _ _ _ hs2
              have h2 : ((r3.dropWhile isImportChar).dropWhile isSpaceChar).length ≤
                  (r3.dropWhile isImportChar).length := dropWhileLenLe _ _
              have h3 : (r3.dropWhile isImportChar).length ≤ r3.length :=
                dropWhileLenLe _ _
              have h4 : (d :: r3).length ≤ r1.length := hd ▸ dropWhileLenLe _ _
              simp only [List.length_cons] at h4
              have h5 : ("import".data).length = 6 := rfl
              have h6 : ("from".data).length = 4 := rfl
              rw [hrest]
              omega


theorem importTry_keyword_match (Y : List Char) (y : Char)
    (hY : ∀ c ∈ y :: Y, isIdentChar c = true) :
    importTry (some ' ') ("import".data ++ (' ' :: (y :: Y))) = some (y :: Y, []) := by
  have hy := hY y (by simp)
  have hYtake : Y.takeWhile isImportChar = Y :=
    List.takeWhile_eq_self_iff.mpr (fun c hc => ident_import (hY c (by simp [hc])))
  have hYdrop : Y.dropWhile isImportChar = [] :=
    List.dropWhile_eq_nil_iff.mpr (fun c hc => ident_import (hY c (by simp [hc])))
  have hysp : isSpaceChar y = false := ident_not_space hy
  show kwCapTry "import".data isImportChar isImportChar _ _ = _
  rw [kwCapTry, stripLit_self]
  simp only [List.takeWhile_cons, List.dropWhile_cons, hysp, ident_import hy, hYtake, hYdrop]
  norm_num [wordBoundaryOk, isWordChar, isSpaceChar]
  exact ⟨by decide, ident_import hy, fun c hc => ident_import (hY c (by simp [hc]))⟩



theorem fromTry_line_match (X Y2 : List Char) (x : Char)
    (hX : ∀ c ∈ x :: X, isIdentChar c = true) :
    fromTry none
        ("from".data ++ (' ' :: ((x :: X) ++ (' ' :: ("import".data ++ Y2))))) =
      some (x :: X, Y2) := by
  have hx := hX x (by simp)
  have hXtake : (X ++ (' ' :: ("import".data ++ Y2))).takeWhile isImportChar =
      X ++ (' ' :: ("import".data ++ Y2)).takeWhile isImportChar :=
    takeWhile_append_all _ _ _ (fun c hc => ident_import (hX c (by simp [hc])))
  have hXdrop : (X ++ (' ' :: ("import".data ++ Y2))).dropWhile isImportChar =
      (' ' :: ("import".data ++ Y2)).dropWhile isImportChar :=
    dropWhile_append_all _ _ _ (fun c hc => ident_import (hX c (by simp [hc])))
  have himpsp : isImportChar ' ' = false := rfl
  simp only [List.takeWhile_cons, List.dropWhile_cons, himpsp, Bool.false_eq_true,
    if_false, List.append_nil, List.cons_append, List.nil_append] at hXtake hXdrop
  have hxsp : isSpaceChar x = false := ident_not_space hx
  have hix : isImportChar x = true := ident_import hx
  have hsp : isSpaceChar ' ' = true := rfl
  have hisp : isSpaceChar 'i' = false := rfl
  rw [fromTry, stripLit_self]
  simp only [wordBoundaryOk, List.cons_append, List.takeWhile_cons, List.dropWhile_cons,
    hsp, hxsp, hisp, hix, hXtake, hXdrop, Bool.false_eq_true, if_false, if_true,
    stripLit_self]
  have hstrip : stripLit ['i', 'm', 'p', 'o', 'r', 't']
      ('i' :: 'm' :: 'p' :: 'o' :: 'r' :: 't' :: Y2) = some Y2 :=
    stripLit_self ['i', 'm', 'p', 'o', 'r', 't'] Y2
  have hd2 : List.dropWhile isSpaceChar ('i' :: 'm' :: 'p' :: 'o' :: 'r' :: 't' :: Y2) =
      'i' :: 'm' :: 'p' :: 'o' :: 'r' :: 't' :: Y2 := rfl
  simp [hXdrop, hXtake, hsp, hstrip, hd2, List.dropWhile_cons]

/-! ## C10 infrastructure: the two scans of the line -/

/-! C10 machinery: the two scans over a `from X import Y` line. -/

theorem importTry_head_ne (pr : Option Char) (c : Char) (rest : List Char) (hc : c ≠ 'i') :
    importTry pr (c :: rest) = none :=
  kwCapTry_head_ne 'i' ['m', 'p', 'o', 'r', 't'] isImportChar isImportChar pr c rest hc

theorem importTry_word_prev (c : Char) (cs : List Char) (h : isWordChar c = true) :
    importTry (some c) cs = none :=
  kwCapTry_word_prev "import".data isImportChar isImportChar c cs h

theorem importTry_ident_chunk_none (X l : List Char) (pr : Option Char)
    (hX : ∀ c ∈ X, isIdentChar c = true)
    (hl : l = [] ∨ ∃ l2, l = ' ' :: l2) (hXkw : X = "import".data → l = []) :
    importTry pr (X ++ l) = none :=
  kwCapTry_ident_chunk_none "import".data isImportChar isImportChar
    (by rw [importData]; decide) X l pr hX hl hXkw

theorem importTry_consumes :
    ∀ pr c cs cap rest, importTry pr (c :: cs) = some (cap, rest) → rest.length ≤ cs.length :=
  kwCapTry_consumes "import".data isImportChar isImportChar (by rw [importData]; decide)

/-- The module-import pattern over the whole line finds exactly `Y`. -/
theorem importScan_line (X Y : List Char) (x y : Char)
    (hX : ∀ c ∈ x :: X, isIdentChar c = true) (hY : ∀ c ∈ y :: Y, isIdentChar c = true)
    (hXimp : x :: X ≠ "import".data) :
    scanF importTry none
        ('f' :: 'r' :: 'o' :: 'm' :: ' ' ::
          ((x :: X) ++ (' ' :: ("import".data ++ (' ' :: (y :: Y)))))) = [y :: Y] := by
  rw [scanF_step_none (importTry_head_ne _ _ _ (by decide))]
  rw [scanF_step_none (importTry_head_ne _ _ _ (by decide))]
  rw [scanF_step_none (importTry_head_ne _ _ _ (by decide))]
  rw [scanF_step_none (importTry_head_ne _ _ _ (by decide))]
  rw [scanF_step_none (importTry_head_ne _ _ _ (by decide))]
  simp only [List.cons_append]
  rw [scanF_chunk_word (fun c cs h => importTry_word_prev c cs h) X x (some ' ') _
    (ident_word (hX x (by simp))) (fun c hc => ident_word (hX c (by simp [hc])))
    (importTry_ident_chunk_none (x :: X) _ (some ' ') hX (Or.inr ⟨_, rfl⟩)
      (fun he => absurd he hXimp))]
  rw [scanF_step_none (importTry_head_ne _ _ _ (by decide))]
  have hm : importTry (some ' ')
      ('i' :: 'm' :: 'p' :: 'o' :: 'r' :: 't' :: ' ' :: (y :: Y)) = some (y :: Y, []) :=
    importTry_keyword_match Y y hY
  simp only [List.nil_append]
  rw [scanF_step_some importTry_consumes hm]
  rw [scanF_nil]

/-- The from pattern over the whole line finds exactly `X`. -/
theorem fromScan_line (X Y : List Char) (x y : Char)
    (hX : ∀ c ∈ x :: X, isIdentChar c = true) (hY : ∀ c ∈ y :: Y, isIdentChar c = true) :
    scanF fromTry none
        ('f' :: 'r' :: 'o' :: 'm' :: ' ' ::
          ((x :: X) ++ (' ' :: ("import".data ++ (' ' :: (y :: Y)))))) = [x :: X] := by
  have hm : fromTry none
      ('f' :: 'r' :: 'o' :: 'm' :: ' ' ::
        ((x :: X) ++ (' ' :: ("import".data ++ (' ' :: (y :: Y)))))) =
      some (x :: X, ' ' :: (y :: Y)) :=
    fromTry_line_match X (' ' :: (y :: Y)) x hX
  rw [scanF_step_some fromTry_consumes hm]
  rw [scanF_step_none (fromTry_head_ne _ _ _ (by decide))]
  rw [show (y :: Y : List Char) = y :: (Y ++ []) from by simp]
  rw [scanF_chunk_word (fun c cs h => fromTry_word_prev c cs h) Y y (some ' ') []
    (ident_word (hY y (by simp))) (fun c hc => ident_word (hY c (by simp [hc, List.append_nil])))
    (fromTry_ident_chunk_none (y :: Y) [] (some ' ')
      (by simpa using hY) (Or.inl rfl) (fun _ => rfl))]
  rw [scanF_nil]

/-- Every character of the line is an identifier character or a space. -/
theorem line_chars (X Y : List Char) (x y : Char)
    (hX : ∀ c ∈ x :: X, isIdentChar c = true) (hY : ∀ c ∈ y :: Y, isIdentChar c = true) :
    ∀ c ∈ ('f' :: 'r' :: 'o' :: 'm' :: ' ' ::
        ((x :: X) ++ (' ' :: ("import".data ++ (' ' :: (y :: Y)))))),
      isIdentChar c = true ∨ c = ' ' := by
  intro c hc
  simp only [importData, List.mem_cons, List.mem_append, List.not_mem_nil, or_false] at hc
  rcases hc with rfl | rfl | rfl | rfl | rfl | hx2 | rfl |
    ((rfl | rfl | rfl | rfl | rfl | rfl) | (rfl | hy2))
  · exact Or.inl (by decide)
  · exact Or.inl (by decide)
  · exact Or.inl (by decide)
  · exact Or.inl (by decide)
  · exact Or.inr rfl
  · exact Or.inl (hX c (List.mem_cons.mpr hx2))
  · exact Or.inr rfl
  · exact Or.inl (by decide)
  · exact Or.inl (by decide)
  · exact Or.inl (by decide)
  · exact Or.inl (by decide)
  · exact Or.inl (by decide)
  · exact Or.inl (by decide)
  · exact Or.inr rfl
  · exact Or.inl (hY c (List.mem_cons.mpr hy2))

/-! ## C10: the double-emission claim -/

/-! C10: assembly of the amended double-emission claim. -/

theorem pyStrip_ident (Z : List Char) (hZ : ∀ c ∈ Z, isIdentChar c = true) :
    pyStrip (String.mk Z) = String.mk Z := by
  unfold pyStrip
  have h1 : Z.dropWhile isSpaceChar = Z := by
    cases Z with
    | nil => rfl
    | cons a Z2 =>
      rw [List.dropWhile_cons]
      simp [ident_not_space (hZ a (by simp))]
  show String.mk (((Z.dropWhile isSpaceChar).reverse.dropWhile isSpaceChar).reverse) = _
  rw [h1]
  have h2 : Z.reverse.dropWhile isSpaceChar = Z.reverse := by
    cases hrev : Z.reverse with
    | nil => rfl
    | cons a R =>
      have ha : a ∈ Z := by
        rw [← List.mem_reverse, hrev]
        simp
      rw [List.dropWhile_cons]
      simp [ident_not_space (hZ a ha)]
  rw [h2, List.reverse_reverse]

theorem resolve_ident (fs : List String) (Z : List Char) (z : Char)
    (hz : isIdentChar z = true) :
    resolve_import fs (String.mk (z :: Z)) = String.mk (z :: Z) := by
  have h1 : z ≠ '.' := ident_ne hz (by decide)
  have h2 : z ≠ '/' := ident_ne hz (by decide)
  have h3 : z ≠ '@' := ident_ne hz (by decide)
  have hm : hasMarker (String.mk (z :: Z)) = false := by
    simp [hasMarker, h1, h2, h3]
  simp [resolve_import, hm]

theorem mkString_ne_empty (Z : List Char) (z : Char) : String.mk (z :: Z) ≠ "" := by
  intro h
  have := String.ext_iff.mp h
  simp at this

/-- C10, amended, for a whole-line content `from X import Y` with bare
identifier tokens `X` and `Y`: the module-import pattern captures `Y`
and the from pattern independently captures `X` (the require and
include patterns match nothing), so when `X ≠ Y` (and `X` is not the
literal keyword `import`) the scanner emits two distinct import
results: an `external:`-typed node with id `Y` and one with id `X`,
each with its own link from the scanning file. -/
theorem from_import_double_emission (fs : List String) (rel : String) (X Y : List Char)
    (hX : ∀ c ∈ X, isIdentChar c = true) (hY : ∀ c ∈ Y, isIdentChar c = true)
    (hXne : X ≠ []) (hYne : Y ≠ []) (hXimp : X ≠ "import".data) (hXY : X ≠ Y) :
    importMatches ("from " ++ String.mk X ++ " import " ++ String.mk Y) =
        [String.mk Y, String.mk X] ∧
      (⟨String.mk Y, "external:" ++ String.mk Y⟩ : RawNode) ∈
        (parse_file fs rel (some ("from " ++ String.mk X ++ " import " ++ String.mk Y))).1 ∧
      (⟨String.mk X, "external:" ++ String.mk X⟩ : RawNode) ∈
        (parse_file fs rel (some ("from " ++ String.mk X ++ " import " ++ String.mk Y))).1 ∧
      (⟨rel, String.mk Y⟩ : Link) ∈
        (parse_file fs rel (some ("from " ++ String.mk X ++ " import " ++ String.mk Y))).2 ∧
      (⟨rel, String.mk X⟩ : Link) ∈
        (parse_file fs rel (some ("from " ++ String.mk X ++ " import " ++ String.mk Y))).2 ∧
      String.mk X ≠ String.mk Y := by
  obtain ⟨x, X2, rfl⟩ : ∃ x X2, X = x :: X2 := by
    cases X with
    | nil => exact absurd rfl hXne
    | cons a b => exact ⟨a, b, rfl⟩
  obtain ⟨y, Y2, rfl⟩ : ∃ y Y2, Y = y :: Y2 := by
    cases Y with
    | nil => exact absurd rfl hYne
    | cons a b => exact ⟨a, b, rfl⟩
  have hdata : ("from " ++ String.mk (x :: X2) ++ " import " ++ String.mk (y :: Y2)).data =
      'f' :: 'r' :: 'o' :: 'm' :: ' ' ::
        (((x :: X2)) ++ (' ' :: ("import".data ++ (' ' :: (y :: Y2))))) := by
    simp only [String.data_append, List.append_assoc]
    rfl
  have hchars := line_chars X2 Y2 x y hX hY
  have hreq : findAllPat requireTry
      ("from " ++ String.mk (x :: X2) ++ " import " ++ String.mk (y :: Y2)) = [] := by
    rw [findAllPat_eq_scanF, hdata, scanF_all_none]
    · rfl
    · intro pr2 sfx hs
      refine requireTry_no_paren pr2 sfx (fun hmem => ?_)
      rcases hchars '(' (hs.subset hmem) with h | h
      · exact absurd h (by decide)
      · exact absurd h (by decide)
  have hinc : findAllPat includeTry
      ("from " ++ String.mk (x :: X2) ++ " import " ++ String.mk (y :: Y2)) = [] := by
    rw [findAllPat_eq_scanF, hdata, scanF_all_none]
    · rfl
    · intro pr2 sfx hs
      refine includeTry_no_hash pr2 sfx (fun hmem => ?_)
      rcases hchars '#' (hs.subset hmem) with h | h
      · exact absurd h (by decide)
      · exact absurd h (by decide)
  have himp : findAllPat importTry
      ("from " ++ String.mk (x :: X2) ++ " import " ++ String.mk (y :: Y2)) =
      [String.mk (y :: Y2)] := by
    rw [findAllPat_eq_scanF, hdata, importScan_line X2 Y2 x y hX hY hXimp]
    rfl
  have hfrom : findAllPat fromTry
      ("from " ++ String.mk (x :: X2) ++ " import " ++ String.mk (y :: Y2)) =
      [String.mk (x :: X2)] := by
    rw [findAllPat_eq_scanF, hdata, fromScan_line X2 Y2 x y hX hY]
    rfl
  have hmatches : importMatches
      ("from " ++ String.mk (x :: X2) ++ " import " ++ String.mk (y :: Y2)) =
      [String.mk (y :: Y2), String.mk (x :: X2)] := by
    unfold importMatches
    rw [himp, hfrom, hreq, hinc]
    rfl
  have htokens : importTokensOf (importMatches
      ("from " ++ String.mk (x :: X2) ++ " import " ++ String.mk (y :: Y2))) =
      [String.mk (y :: Y2), String.mk (x :: X2)] := by
    rw [hmatches]
    unfold importTokensOf
    rw [List.map_cons, List.map_cons, List.map_nil,
      pyStrip_ident _ hY, pyStrip_ident _ hX]
    simp [mkString_ne_empty]
  have hresY := resolve_ident fs Y2 y (hY y (by simp))
  have hresX := resolve_ident fs X2 x (hX x (by simp))
  have hnodes : importNodesOf fs (importMatches
      ("from " ++ String.mk (x :: X2) ++ " import " ++ String.mk (y :: Y2))) =
      [⟨String.mk (y :: Y2), "external:" ++ String.mk (y :: Y2)⟩,
        ⟨String.mk (x :: X2), "external:" ++ String.mk (x :: X2)⟩] := by
    unfold importNodesOf
    rw [htokens]
    simp [hresY, hresX]
  have hlinks : importLinksOf fs rel (importMatches
      ("from " ++ String.mk (x :: X2) ++ " import " ++ String.mk (y :: Y2))) =
      [⟨rel, String.mk (y :: Y2)⟩, ⟨rel, String.mk (x :: X2)⟩] := by
    unfold importLinksOf
    rw [htokens]
    simp [hresY, hresX]
  refine ⟨hmatches, ?_, ?_, ?_, ?_, fun h => hXY (String.ext_iff.mp h)⟩
  · show _ ∈ (parse_file_from_matches fs rel _ _ _ _).1
    simp only [parse_file_from_matches, List.mem_cons, List.mem_append, hnodes]
    simp
  · show _ ∈ (parse_file_from_matches fs rel _ _ _ _).1
    simp only [parse_file_from_matches, List.mem_cons, List.mem_append, hnodes]
    simp
  · show _ ∈ (parse_file_from_matches fs rel _ _ _ _).2
    simp only [parse_file_from_matches, List.mem_append, hlinks]
    simp
  · show _ ∈ (parse_file_from_matches fs rel _ _ _ _).2
    simp only [parse_file_from_matches, List.mem_append, hlinks]
    simp

/-- C10 counterexample: on the line `from os import os` (the form
`from X import Y` with X = Y) the two patterns both capture `os`, the
two emitted import results share one id, and the built graph contains a
single import node — there is no separate node with a distinct id. -/
theorem from_import_same_name_collapses :
    importMatches "from os import os" = ["os", "os"] ∧
      (build_graph [] (fun _ => ((0 : Int), (0 : Int), (0 : Int)))
          [("a.py", some "from os import os")]).nodes.map Node.id = ["a.py", "os"] := by
  decide

/-- C10 amended, witness: the line `from os import path` emits the two
distinct external nodes `path` and `os` with their links. -/
theorem from_import_double_emission_witness :
    importMatches "from os import path" = ["path", "os"] ∧
      (⟨"path", "external:path"⟩ : RawNode) ∈
        (parse_file [] "a.py" (some "from os import path")).1 ∧
      (⟨"os", "external:os"⟩ : RawNode) ∈
        (parse_file [] "a.py" (some "from os import path")).1 ∧
      (⟨"a.py", "path"⟩ : Link) ∈ (parse_file [] "a.py" (some "from os import path")).2 ∧
      (⟨"a.py", "os"⟩ : Link) ∈ (parse_file [] "a.py" (some "from os import path")).2 ∧
      ("os" : String) ≠ "path" :=
  from_import_double_emission [] "a.py" "os".data "path".data (by decide) (by decide)
    (by decide) (by decide) (by decide) (by decide)

end DevGraph
